import Mathlib

/-!
Verification of the rankchoice backend core: the single-winner RCV tabulation
engine (`src/backend/src/services/rcv.rs`), the ballot-submission validators
(`src/backend/src/api/voting.rs`), the ballot/voter store operations
(`src/backend/src/models/ballot.rs`), and receipt issuance.

Modelling conventions:
* `uuid::Uuid` is embedded as an opaque `Nat` identifier (`Uuid` below);
  UUIDs rendered as strings (receipt codes) are embedded as `List Char`.
* Rust `f64` vote tallies are always exact integer counts (the engine only
  ever adds `1.0`), so they are embedded as `Nat`.  The `f64` majority
  threshold `total / 2.0` is exactly representable and is embedded as `ℚ`;
  the engine's comparison `count > total / 2.0` is embedded as the equivalent
  integer comparison `2 * count > total` (theorem `majority_gt_half_iff`).
* `std::collections::HashMap` is embedded as an association list built in
  first-insertion order (`bump`); as a key-value map this is exactly the map
  the Rust code builds.  The one place the UNSPECIFIED `HashMap` iteration
  order leaks into the output (the order of `tied_candidates`, indexed by the
  `Random` tie-break) is modelled by an explicit parameter `HashEnv.perm`;
  the seeded `rand::StdRng` draw `gen_range(0..len)` (an external crate) is
  modelled by the parameter `HashEnv.randIdx`, constrained by `HashEnv.Ok`.
* Rust's stable `sort_by` is embedded as `List.insertionSort`, which is also
  stable; a stable sort's output is uniquely determined, so the two agree.
* `Err(String)` values of the engine are embedded as the inductive `RcvError`
  whose constructors carry exactly the data interpolated into the Rust
  format strings (noted on each constructor).
-/

/-- Model of `uuid::Uuid`: an opaque identifier. -/
abbrev Uuid := Nat

/-- `services/rcv.rs` `struct Ballot`. -/
structure Ballot where
  id : Uuid
  voterId : Uuid
  rankings : List Uuid
deriving DecidableEq, Repr

/-- `services/rcv.rs` `struct Candidate`. -/
structure Candidate where
  id : Uuid
  name : List Char
deriving DecidableEq, Repr

/-- `services/rcv.rs` `enum TieBreakMethod`. -/
inductive TieBreakMethod where
  | firstChoiceVotes
  | priorRoundPerformance
  | mostVotesToDistribute
  | random (seed : Nat)
deriving DecidableEq, Repr

/-- `services/rcv.rs` `enum TieBreakReason`. -/
inductive TieBreakReason where
  | firstChoiceVotes
  | priorRoundPerformance
  | mostVotesToDistribute
  | random
deriving DecidableEq, Repr

/-- `services/rcv.rs` `struct Round`.  `vote_counts : HashMap<Uuid, f64>` is
embedded as an association list in insertion order (see module docstring). -/
structure Round where
  roundNumber : Nat
  voteCounts : List (Uuid × Nat)
  eliminated : Option Uuid
  winner : Option Uuid
  exhaustedBallots : Nat
  totalVotes : Nat
  majorityThreshold : ℚ
  tiebreakReason : Option TieBreakReason

/-- `services/rcv.rs` `struct RcvResult`. -/
structure RcvResult where
  rounds : List Round
  winner : Option Uuid
  totalBallots : Nat
  exhaustedBallots : Nat

/-- The engine's `Err(String)` values; each constructor carries the data the
Rust code interpolates into the corresponding format string:
* `invalidCandidate c b` = `"Invalid candidate ID {c} in ballot {b}"`
* `duplicateRanking b` = `"Duplicate candidate ranking in ballot {b}"`
* `needAtLeastTwoCandidates` = `"Need at least 2 candidates for RCV"`
* `infiniteLoopDetected` = `"Too many rounds - possible infinite loop detected"` -/
inductive RcvError where
  | invalidCandidate (candidateId : Uuid) (ballotId : Uuid)
  | duplicateRanking (ballotId : Uuid)
  | needAtLeastTwoCandidates
  | infiniteLoopDetected
deriving DecidableEq, Repr

/-- Model of the two sources of behaviour outside the repository's code that
the engine consults: the iteration order of a `HashMap` (applied to the
canonical tied-candidate list) and the seeded `rand::StdRng` index draw. -/
structure HashEnv where
  perm : List Uuid → List Uuid
  randIdx : Nat → Nat → Nat

/-- Faithfulness conditions: a `HashMap` iterates each key set in some order
(a permutation), and `StdRng.gen_range(0..n)` returns an index `< n`. -/
def HashEnv.Ok (env : HashEnv) : Prop :=
  (∀ l, (env.perm l).Perm l) ∧ (∀ s n, 0 < n → env.randIdx s n < n)

/-- `validate_ballots`' inner loop over one ballot's rankings: the first
ranking with an unknown candidate id errors, then the first ranking whose
candidate was already `seen` errors. -/
def checkBallotRankings (candidateIds : List Uuid) (ballotId : Uuid) :
    List Uuid → List Uuid → Except RcvError Unit
  | _, [] => .ok ()
  | seen, c :: rest =>
    if ¬ candidateIds.contains c then .error (.invalidCandidate c ballotId)
    else if seen.contains c then .error (.duplicateRanking ballotId)
    else checkBallotRankings candidateIds ballotId (c :: seen) rest

/-- `SingleWinnerRCV::validate_ballots`. -/
def validateBallots (candidates : List Candidate) : List Ballot → Except RcvError Unit
  | [] => .ok ()
  | b :: rest => do
    checkBallotRankings (candidates.map (·.id)) b.id [] b.rankings
    validateBallots candidates rest

/-- One ballot's vote in a round: the highest-ranked non-eliminated candidate
(`ballot.rankings.iter().find(|c| !eliminated.contains(c))`). -/
def topChoice (eliminated : List Uuid) (rankings : List Uuid) : Option Uuid :=
  rankings.find? (fun c => ¬ eliminated.contains c)

/-- `*vote_counts.entry(c).or_insert(0.0) += 1.0` on the association-list
embedding of the map: bump an existing key or append a new one. -/
def bump : List (Uuid × Nat) → Uuid → List (Uuid × Nat)
  | [], c => [(c, 1)]
  | (k, v) :: rest, c =>
    if k = c then (k, v + 1) :: rest else (k, v) :: bump rest c

/-- The loop of the tally step, processing ballots in order with the running
(vote_counts, exhausted) accumulator. -/
def tallyAux (eliminated : List Uuid) (acc : List (Uuid × Nat) × Nat) :
    List Ballot → List (Uuid × Nat) × Nat
  | [] => acc
  | b :: rest =>
    match topChoice eliminated b.rankings with
    | some c => tallyAux eliminated (bump acc.1 c, acc.2) rest
    | none => tallyAux eliminated (acc.1, acc.2 + 1) rest

/-- The tally step of one round: each ballot either votes for its top
non-eliminated choice or is exhausted.  Returns (vote_counts, exhausted). -/
def tallyVotes (ballots : List Ballot) (eliminated : List Uuid) :
    List (Uuid × Nat) × Nat :=
  tallyAux eliminated ([], 0) ballots

/-- Sum of a tally map's values (`vote_counts.values().sum()`). -/
def valuesSum (l : List (Uuid × Nat)) : Nat := (l.map (·.2)).sum

/-- The key set of a tally map. -/
def keysOf (l : List (Uuid × Nat)) : List Uuid := l.map (·.1)

/-- First-choice votes for candidate `c`: the number of ballots whose very
first ranking is `c` (eliminations ignored).  `try_first_choice_tiebreak`
builds this map restricted to tied candidates; it only ever reads entries of
tied candidates, for which the two definitions agree (absent entry = 0). -/
def countFirstChoice (ballots : List Ballot) (c : Uuid) : Nat :=
  (ballots.filter (fun b => b.rankings.head? = some c)).length

/-- `SingleWinnerRCV::try_first_choice_tiebreak`: the tied candidate with the
strictly fewest first-choice votes, if unique. -/
def tryFirstChoiceTiebreak (ballots : List Ballot) (tied : List Uuid) : Option Uuid :=
  match (tied.map (countFirstChoice ballots)).min? with
  | none => none
  | some minFc =>
    match tied.filter (fun id => countFirstChoice ballots id = minFc) with
    | [only] => some only
    | _ => none

/-- `round.vote_counts.get(&id)` on the association-list embedding. -/
def roundLookup (r : Round) (id : Uuid) : Option Nat :=
  (r.voteCounts.find? (fun kv => kv.1 = id)).map (·.2)

/-- The `candidate_votes` vector of `try_prior_round_tiebreak`: tied members
that have a tally in round `r`, with their tallies (absent members skipped). -/
def presentVotes (tied : List Uuid) (r : Round) : List (Uuid × Nat) :=
  tied.filterMap (fun id => (roundLookup r id).map (fun v => (id, v)))

/-- One iteration of `try_prior_round_tiebreak`'s loop: sort the present
tallies ascending (stably, like Rust's `sort_by`); decide only when there are
at least two entries and the lowest tally is strictly unique. -/
def priorRoundStep (tied : List Uuid) (r : Round) : Option Uuid :=
  match (presentVotes tied r).insertionSort (fun a b => a.2 ≤ b.2) with
  | a :: b :: _ => if a.2 < b.2 then some a.1 else none
  | _ => none

/-- The walk of `try_prior_round_tiebreak` over the reversed rounds list. -/
def priorRoundWalk (tied : List Uuid) : List Round → Option Uuid
  | [] => none
  | r :: rest =>
    match priorRoundStep tied r with
    | some c => some c
    | none => priorRoundWalk tied rest

/-- `SingleWinnerRCV::try_prior_round_tiebreak`: walk recorded rounds most
recent first (`previous_rounds.iter().rev()`). -/
def tryPriorRoundTiebreak (tied : List Uuid) (previousRounds : List Round) : Option Uuid :=
  priorRoundWalk tied previousRounds.reverse

/-- The inner loop of `try_most_votes_to_distribute` for one ballot: the
ballot's earliest tied member, credited with the number of further
preferences after it (`rankings.len() - index - 1` = length of the rest). -/
def earliestTiedCredit (tied : List Uuid) : List Uuid → Option (Uuid × Nat)
  | [] => none
  | c :: rest =>
    if tied.contains c then some (c, rest.length) else earliestTiedCredit tied rest

/-- Total redistribution credit of tied candidate `c`. -/
def redistribution (ballots : List Ballot) (tied : List Uuid) (c : Uuid) : Nat :=
  ballots.foldl
    (fun acc b =>
      match earliestTiedCredit tied b.rankings with
      | some dk => if dk.1 = c then acc + dk.2 else acc
      | none => acc)
    0

/-- `SingleWinnerRCV::try_most_votes_to_distribute`: the tied candidate with
the strictly greatest redistribution credit, if unique. -/
def tryMostVotesToDistribute (ballots : List Ballot) (tied : List Uuid) : Option Uuid :=
  match (tied.map (redistribution ballots tied)).max? with
  | none => none
  | some maxR =>
    match tied.filter (fun id => redistribution ballots tied id = maxR) with
    | [only] => some only
    | _ => none

/-- The seed `random_tiebreak` extracts from the configured method
(`Random(seed) => seed`, anything else the default `42`). -/
def seedOf : TieBreakMethod → Nat
  | .random s => s
  | _ => 42

/-- `SingleWinnerRCV::random_tiebreak`:
`tied_candidates[rng.gen_range(0..tied_candidates.len())]` with the seeded
`StdRng` draw modelled by `env.randIdx` (in Rust an empty `tied` panics; the
`getD` default is unreachable under `HashEnv.Ok` at call sites). -/
def randomTiebreak (env : HashEnv) (m : TieBreakMethod) (tied : List Uuid) : Uuid :=
  tied.getD (env.randIdx (seedOf m) tied.length) 0

/-- `SingleWinnerRCV::break_tie_comprehensive`: the four-rung ladder. -/
def breakTieComprehensive (env : HashEnv) (ballots : List Ballot)
    (m : TieBreakMethod) (tied : List Uuid) (previousRounds : List Round) :
    Uuid × TieBreakReason :=
  match tryFirstChoiceTiebreak ballots tied with
  | some w => (w, .firstChoiceVotes)
  | none =>
    match tryPriorRoundTiebreak tied previousRounds with
    | some w => (w, .priorRoundPerformance)
    | none =>
      match tryMostVotesToDistribute ballots tied with
      | some w => (w, .mostVotesToDistribute)
      | none => (randomTiebreak env m tied, .random)

/-- The elimination selection of `tabulate`'s loop body, reached when there is
no winner and more than one candidate has votes: the minimum tally, the tied
set (in `HashMap` iteration order, modelled by `env.perm` applied to the
insertion-order list), a unique minimum directly, otherwise the ladder. -/
def chooseElimination (env : HashEnv) (ballots : List Ballot) (m : TieBreakMethod)
    (counts : List (Uuid × Nat)) (previousRounds : List Round) :
    Option Uuid × Option TieBreakReason :=
  let minV := ((counts.map (·.2)).min?).getD 0
  let tied := env.perm ((counts.filter (fun kv => kv.2 = minV)).map (·.1))
  match tied with
  | [only] => (some only, none)
  | l =>
    let er := breakTieComprehensive env ballots m l previousRounds
    (some er.1, some er.2)

/-- One iteration of `tabulate`'s loop: tally, win check (`count > total/2.0`,
embedded as `2 * count > total`), elimination selection, record the round. -/
def computeRound (env : HashEnv) (ballots : List Ballot) (m : TieBreakMethod)
    (eliminated : List Uuid) (previousRounds : List Round) (roundNumber : Nat) :
    Round :=
  let t := tallyVotes ballots eliminated
  let counts : List (Uuid × Nat) := t.1
  let total : Nat := valuesSum counts
  let winner : Option Uuid := (counts.find? (fun kv => total < 2 * kv.2)).map (·.1)
  let er :=
    if winner = none ∧ 1 < counts.length then
      chooseElimination env ballots m counts previousRounds
    else (none, none)
  { roundNumber := roundNumber
    voteCounts := counts
    eliminated := er.1
    winner := winner
    exhaustedBallots := t.2
    totalVotes := total
    majorityThreshold := (total : ℚ) / 2
    tiebreakReason := er.2 }

/-- `tabulate`'s loop.  `fuel` counts the rounds still allowed before the
safety cap: the Rust loop errors when `round_number > candidates.len()` after
an increment, i.e. exactly when a `(|candidates| + 1)`-th round would start,
which is the `fuel = 0` case here (the initial call passes
`fuel = |candidates|`, `round_number = 1`). -/
def runRounds (env : HashEnv) (ballots : List Ballot) (m : TieBreakMethod) :
    Nat → List Uuid → List Round → Nat → Except RcvError (List Round)
  | 0, _, _, _ => .error .infiniteLoopDetected
  | fuel + 1, eliminated, previousRounds, roundNumber =>
    let round := computeRound env ballots m eliminated previousRounds roundNumber
    if round.winner.isSome ∨ round.voteCounts.length ≤ 1 then
      .ok [round]
    else
      let elim' :=
        match round.eliminated with
        | some e => eliminated ++ [e]
        | none => eliminated
      (runRounds env ballots m fuel elim' (previousRounds ++ [round])
        (roundNumber + 1)).map (round :: ·)

/-- `SingleWinnerRCV::tabulate`: validate, require at least two candidates,
run the rounds, then resolve the final winner as the last round's declared
winner, falling back to the first key of the last round's tallies
(`vote_counts.keys().next()`; evaluated only when the declared winner is
`None`, in which case the tally map has at most one key, so insertion order
and iteration order agree). -/
def tabulate (env : HashEnv) (candidates : List Candidate) (ballots : List Ballot)
    (m : TieBreakMethod) : Except RcvError RcvResult := do
  validateBallots candidates ballots
  if candidates.length < 2 then
    throw .needAtLeastTwoCandidates
  else
    let rounds ← runRounds env ballots m candidates.length [] [] 1
    let lastWinner := (rounds.getLast?).bind (·.winner)
    let fallback := (rounds.getLast?).bind (fun r => (r.voteCounts.head?).map (·.1))
    pure
      { rounds := rounds
        winner := lastWinner <|> fallback
        totalBallots := ballots.length
        exhaustedBallots := ((rounds.getLast?).map (·.exhaustedBallots)).getD 0 }

/-! ### Ballot-submission validators (`api/voting.rs`) -/

/-- The fields of `models/poll.rs` `Poll` the submission handlers read.
Timestamps are opaque instants ordered by `≤`, embedded as `Nat`. -/
structure PollM where
  id : Uuid
  isPublic : Bool
  opensAt : Option Nat
  closesAt : Option Nat
deriving DecidableEq, Repr

/-- The fields of `models/ballot.rs` `Voter` the submission handlers read. -/
structure VoterM where
  id : Uuid
  pollId : Uuid
  votedAt : Option Nat
deriving DecidableEq, Repr

/-- `Voter::has_voted`. -/
def VoterM.hasVoted (v : VoterM) : Bool := v.votedAt.isSome

/-- The distinct rejection responses of `submit_ballot` /
`submit_anonymous_vote`, one constructor per distinct `(code, message)` pair:
* `alreadyVoted` = `("ALREADY_VOTED", "You have already submitted your ballot")`
* `pollClosed` = `("POLL_CLOSED", "This poll is not currently open for voting")`
* `emptyBallot` = `("VALIDATION_ERROR", "Ballot must contain at least one ranking")`
* `invalidCandidate` = `("VALIDATION_ERROR", "Invalid candidate ID in ballot")`
* `nonSequentialRanks` = `("VALIDATION_ERROR", "Rankings must be sequential starting from 1")`
* `pollNotPublic` = `("POLL_NOT_PUBLIC", "This poll is not open for public voting")` -/
inductive SubmitReject where
  | alreadyVoted
  | pollClosed
  | emptyBallot
  | invalidCandidate
  | nonSequentialRanks
  | pollNotPublic
deriving DecidableEq, Repr

/-- The handlers' poll-open check:
`opens_at.map_or(true, |o| now >= o) && closes_at.map_or(true, |c| now <= c)`. -/
def pollIsOpen (p : PollM) (now : Nat) : Bool :=
  (p.opensAt.all (fun o => o ≤ now)) && (p.closesAt.all (fun c => now ≤ c))

/-- The rank-sequence scan: after sorting, position `i` must hold rank
`i + 1`. -/
def ranksFrom : List Int → Int → Bool
  | [], _ => true
  | r :: rest, expected => r = expected && ranksFrom rest (expected + 1)

/-- `submit_ballot`'s ranking-sequence validation: sorted ranks must be
exactly `1, 2, …, n`. -/
def ranksSequential (ranks : List Int) : Bool :=
  ranksFrom (ranks.insertionSort (fun a b => a ≤ b)) 1

/-- The validation sequence of `submit_ballot` (invited route), after the
voter and poll rows were found, in source order: already-voted, poll-closed,
empty rankings, unknown candidate id, non-sequential ranks.  Returns the
first rejection, or `none` when the handler proceeds to persist the ballot.
No duplicate-candidate check exists on this path. -/
def submitBallotValidate (voter : VoterM) (poll : PollM) (now : Nat)
    (validIds : List Uuid) (rankings : List (Uuid × Int)) : Option SubmitReject :=
  if voter.hasVoted then some .alreadyVoted
  else if ¬ pollIsOpen poll now then some .pollClosed
  else if rankings.isEmpty then some .emptyBallot
  else if rankings.any (fun rk => ¬ validIds.contains rk.1) then some .invalidCandidate
  else if ¬ ranksSequential (rankings.map (·.2)) then some .nonSequentialRanks
  else none

/-- The validation sequence of `submit_anonymous_vote`, after the poll row was
found, in source order: not-public, poll-closed, empty rankings, unknown
candidate id, non-sequential ranks. -/
def submitAnonymousValidate (poll : PollM) (now : Nat)
    (validIds : List Uuid) (rankings : List (Uuid × Int)) : Option SubmitReject :=
  if ¬ poll.isPublic then some .pollNotPublic
  else if ¬ pollIsOpen poll now then some .pollClosed
  else if rankings.isEmpty then some .emptyBallot
  else if rankings.any (fun rk => ¬ validIds.contains rk.1) then some .invalidCandidate
  else if ¬ ranksSequential (rankings.map (·.2)) then some .nonSequentialRanks
  else none

/-! ### Store operations (`models/ballot.rs`) -/

/-- A row of the `ballots` table. -/
structure BallotRow where
  id : Uuid
  voterId : Option Uuid
  pollId : Uuid
  submittedAt : Nat
deriving DecidableEq, Repr

/-- A row of the `rankings` table. -/
structure RankingRow where
  ballotId : Uuid
  candidateId : Uuid
  rank : Int
deriving DecidableEq, Repr

/-- A row of the `voters` table (the columns the core touches). -/
structure VoterRow where
  id : Uuid
  pollId : Uuid
  votedAt : Option Nat
deriving DecidableEq, Repr

/-- The store.  Each committed transaction is one transition on this state;
any value of this type is an observable database state. -/
structure Store where
  ballots : List BallotRow
  rankings : List RankingRow
  voters : List VoterRow
  nextId : Uuid
deriving DecidableEq, Repr

/-- `Ballot::create`: ONE transaction inserting the ballot row and its
ranking rows.  The voter row is not touched here. -/
def Ballot.create (st : Store) (voterId : Uuid) (pollId : Uuid)
    (rankings : List (Uuid × Int)) (now : Nat) : Store × BallotRow :=
  let row : BallotRow :=
    { id := st.nextId, voterId := some voterId, pollId := pollId, submittedAt := now }
  ({ st with
      ballots := st.ballots ++ [row]
      rankings := st.rankings ++
        rankings.map (fun rk => { ballotId := row.id, candidateId := rk.1, rank := rk.2 })
      nextId := st.nextId + 1 },
    row)

/-- `Voter::mark_as_voted`: the separate statement
`UPDATE voters SET voted_at = CURRENT_TIMESTAMP WHERE id = $1`, run OUTSIDE
`Ballot::create`'s transaction.  It carries no `voted_at IS NULL` condition
and reports success regardless of the voter's prior state. -/
def Voter.markAsVoted (st : Store) (voterId : Uuid) (now : Nat) : Except String Store :=
  .ok { st with
    voters := st.voters.map (fun v =>
      if v.id = voterId then { v with votedAt := some now } else v) }

/-- The persistence phase of `submit_ballot` after validation passes: first
`Ballot::create` commits (state `mid`), then `Voter::mark_as_voted` runs.
Returns the intermediate committed state, the final state and the new row. -/
def submitBallotPersist (st : Store) (voter : VoterM) (pollId : Uuid)
    (rankings : List (Uuid × Int)) (now : Nat) :
    Store × Except String Store × BallotRow :=
  let mid := Ballot.create st voter.id pollId rankings now
  (mid.1, Voter.markAsVoted mid.1 voter.id now, mid.2)

/-! ### Receipt issuance (`api/voting.rs`) -/

/-- Decimal digits of a `Nat` (kernel-computable fuel recursion); for the
four-digit years at issue this is exactly chrono's `%Y` rendering. -/
def natDigitsAux : Nat → Nat → List Char
  | 0, _ => []
  | fuel + 1, n =>
    let d := Char.ofNat (48 + n % 10)
    if n < 10 then [d] else natDigitsAux fuel (n / 10) ++ [d]

/-- Render a `Nat` in decimal as a character list. -/
def natDigits (n : Nat) : List Char := natDigitsAux (n + 1) n

/-- `ballot.id.to_string().split('-').next().unwrap_or("UNKNOWN")`: the part
of the rendered UUID before the first `'-'` (for a string containing no `'-'`
this is the whole string; `split` always yields a first item, so the
`"UNKNOWN"` default is dead). -/
def firstUuidSegment (s : List Char) : List Char := s.takeWhile (· ≠ '-')

/-- The receipt code `submit_ballot` puts in its response:
`format!("VOTE-{}-{}", chrono::Utc::now().format("%Y"), first_segment)` —
note the year is the wall-clock year WHEN THE RESPONSE IS BUILT. -/
def submitReceiptCode (nowYear : Nat) (ballotId : List Char) : List Char :=
  "VOTE-".toList ++ natDigits nowYear ++ "-".toList ++ firstUuidSegment ballotId

/-- The receipt code `get_voting_receipt` rebuilds:
`format!("VOTE-{}-{}", ballot_row.submitted_at.format("%Y"), first_segment)` —
note the year is the year of the STORED `submitted_at` timestamp. -/
def fetchReceiptCode (submittedAtYear : Nat) (ballotId : List Char) : List Char :=
  "VOTE-".toList ++ natDigits submittedAtYear ++ "-".toList ++ firstUuidSegment ballotId

/-- The receipt code `submit_anonymous_vote` puts in its response:
`format!("ANON-{}-{}", chrono::Utc::now().format("%Y"), first_segment)`. -/
def anonReceiptCode (nowYear : Nat) (ballotId : List Char) : List Char :=
  "ANON-".toList ++ natDigits nowYear ++ "-".toList ++ firstUuidSegment ballotId

/-! ### Specification-side predicates and concrete instances -/

/-- Well-formedness facts every recorded round satisfies (proved below):
positive tallies, distinct keys, the conservation equation, and the winner
characterisation. -/
def RoundGood (ballots : List Ballot) (r : Round) : Prop :=
  (∀ kv ∈ r.voteCounts, 0 < kv.2) ∧
  (keysOf r.voteCounts).Nodup ∧
  valuesSum r.voteCounts + r.exhaustedBallots = ballots.length ∧
  r.totalVotes = valuesSum r.voteCounts ∧
  r.majorityThreshold = (r.totalVotes : ℚ) / 2 ∧
  r.winner = (r.voteCounts.find? (fun kv => r.totalVotes < 2 * kv.2)).map (·.1)

/-- Order-theoretic description of when one loop iteration of
`try_prior_round_tiebreak` decides for `c` in round `r`: `c` is present, at
least one other tied member is present, and `c`'s tally is strictly below
every other present member's tally. -/
def SpecDecides (tied : List Uuid) (r : Round) (c : Uuid) : Prop :=
  ∃ v, roundLookup r c = some v ∧ c ∈ tied ∧
    (∃ d ∈ tied, d ≠ c ∧ (roundLookup r d).isSome) ∧
    (∀ d ∈ tied, d ≠ c → ∀ w, roundLookup r d = some w → v < w)

/-- The tied members' tallies recorded in round `r` are not all equal
(members with no tally skipped) — the spec's "round in which the T-members'
tallies differ". -/
def TalliesDiffer (tied : List Uuid) (r : Round) : Prop :=
  ∃ a ∈ tied, ∃ b ∈ tied, ∃ va vb,
    roundLookup r a = some va ∧ roundLookup r b = some vb ∧ va ≠ vb

/-- Candidate `c` holds a lowest tally among the tied members present in
round `r`. -/
def IsLowestIn (tied : List Uuid) (r : Round) (c : Uuid) : Prop :=
  ∃ v, roundLookup r c = some v ∧
    ∀ d ∈ tied, ∀ w, roundLookup r d = some w → v ≤ w

/-- The error (if any) of a tabulation outcome. -/
def errOf : Except RcvError RcvResult → Option RcvError
  | .error e => some e
  | .ok _ => none

/-- One legitimate behaviour of the unspecified parts: identity iteration
order, index draw 0. -/
def envId : HashEnv := { perm := id, randIdx := fun _ _ => 0 }

/-- A second, equally legitimate behaviour: reversed iteration order, same
PRNG draw.  Two invocations of the Rust binary may realise `envId` and
`envRev` respectively, since `HashMap` iteration order is randomised per
process. -/
def envRev : HashEnv := { perm := List.reverse, randIdx := fun _ _ => 0 }

/-- Candidates of the Rust unit tests: Alice (1), Bob (2), Charlie (3). -/
def cands3 : List Candidate :=
  [{ id := 1, name := "Alice".toList },
   { id := 2, name := "Bob".toList },
   { id := 3, name := "Charlie".toList }]

/-- A two-candidate set. -/
def cands2 : List Candidate :=
  [{ id := 0, name := "A".toList }, { id := 1, name := "B".toList }]

/-- Shorthand for a concrete ballot. -/
def mkB (i : Nat) (vid : Nat) (r : List Nat) : Ballot :=
  { id := i, voterId := vid, rankings := r }

/-- The ballots of `test_simple_majority_winner`. -/
def ballotsMaj : List Ballot :=
  [mkB 11 101 [1, 2, 3], mkB 12 102 [1, 3, 2], mkB 13 103 [1, 2],
   mkB 14 104 [2, 1], mkB 15 105 [3, 1]]

/-- The ballots of `test_rcv_elimination_and_transfer`. -/
def ballotsElim : List Ballot :=
  [mkB 21 201 [1, 2], mkB 22 202 [1, 3], mkB 23 203 [2, 1],
   mkB 24 204 [2, 3], mkB 25 205 [3, 1]]

/-- The ballots of `test_exhausted_ballots`. -/
def ballotsExh : List Ballot :=
  [mkB 31 301 [1, 2], mkB 32 302 [1, 2], mkB 33 303 [2, 1],
   mkB 34 304 [2, 1], mkB 35 305 [3]]

/-- Two ballots that tie the two candidates, forcing the `Random` rung. -/
def ballotsTie2 : List Ballot := [mkB 1 101 [0], mkB 2 102 [1]]

/-- Concrete prior rounds for the `PriorRoundPerformance` analysis: in the
most recent round (`r2x`) the tallies of tied set `[1, 2, 3]` are `1, 1, 2` —
they differ, but the minimum is shared — and in the earlier round `r1x` they
are `2, 3, 1` with a unique minimum at candidate `3`. -/
def r1x : Round :=
  { roundNumber := 1, voteCounts := [(3, 1), (1, 2), (2, 3)], eliminated := none,
    winner := none, exhaustedBallots := 0, totalVotes := 6,
    majorityThreshold := ((6 : ℕ) : ℚ) / 2, tiebreakReason := none }

/-- See `r1x`. -/
def r2x : Round :=
  { roundNumber := 2, voteCounts := [(1, 1), (2, 1), (3, 2)], eliminated := none,
    winner := none, exhaustedBallots := 0, totalVotes := 4,
    majorityThreshold := ((4 : ℕ) : ℚ) / 2, tiebreakReason := none }

/-- A rendered ballot UUID used in receipt examples. -/
def wUuid : List Char := "1a2b3c4d-e5f6-7890-abcd-ef1234567890".toList

/-! ## Lemmas: the tally step -/

theorem bump_valuesSum (l : List (Uuid × Nat)) (c : Uuid) :
    valuesSum (bump l c) = valuesSum l + 1 := by
  induction l with
  | nil => simp [bump, valuesSum]
  | cons kv rest ih =>
    obtain ⟨k, v⟩ := kv
    by_cases h : k = c
    · simp only [bump, if_pos h, valuesSum, List.map_cons, List.sum_cons]
      omega
    · simp only [bump, if_neg h, valuesSum, List.map_cons, List.sum_cons] at *
      omega

theorem mem_keysOf_bump (l : List (Uuid × Nat)) (c a : Uuid) :
    a ∈ keysOf (bump l c) ↔ a ∈ keysOf l ∨ a = c := by
  induction l with
  | nil => simp [bump, keysOf]
  | cons kv rest ih =>
    obtain ⟨k, v⟩ := kv
    by_cases h : k = c
    · subst h
      simp [bump, keysOf]
      tauto
    · simp only [bump, if_neg h, keysOf, List.map_cons, List.mem_cons] at *
      tauto

theorem nodup_keysOf_bump (l : List (Uuid × Nat)) (c : Uuid)
    (h : (keysOf l).Nodup) : (keysOf (bump l c)).Nodup := by
  induction l with
  | nil => simp [bump, keysOf]
  | cons kv rest ih =>
    obtain ⟨k, v⟩ := kv
    simp only [keysOf, List.map_cons, List.nodup_cons] at h
    by_cases hk : k = c
    · subst hk
      simpa [bump, keysOf] using h
    · simp only [bump, if_neg hk, keysOf, List.map_cons, List.nodup_cons]
      refine ⟨fun hmem => ?_, ih h.2⟩
      rcases (mem_keysOf_bump rest c k).mp hmem with h1 | h1
      · exact h.1 h1
      · exact hk h1

theorem pos_of_mem_bump (l : List (Uuid × Nat)) (c : Uuid)
    (h : ∀ kv ∈ l, 0 < kv.2) : ∀ kv ∈ bump l c, 0 < kv.2 := by
  induction l with
  | nil => simp [bump]
  | cons kv rest ih =>
    obtain ⟨k, v⟩ := kv
    by_cases hk : k = c
    · intro kv' hm
      simp only [bump, if_pos hk, List.mem_cons] at hm
      rcases hm with rfl | hm
      · simp
      · exact h kv' (List.mem_cons_of_mem _ hm)
    · intro kv' hm
      simp only [bump, if_neg hk, List.mem_cons] at hm
      rcases hm with rfl | hm
      · exact h (k, v) (List.mem_cons_self _ _)
      · exact ih (fun x hx => h x (List.mem_cons_of_mem _ hx)) kv' hm

theorem tallyAux_sum (eliminated : List Uuid) :
    ∀ (bs : List Ballot) (acc : List (Uuid × Nat) × Nat),
      valuesSum (tallyAux eliminated acc bs).1 + (tallyAux eliminated acc bs).2 =
        valuesSum acc.1 + acc.2 + bs.length := by
  intro bs
  induction bs with
  | nil => intro acc; simp [tallyAux]
  | cons b rest ih =>
    intro acc
    cases htc : topChoice eliminated b.rankings with
    | some c =>
      simp only [tallyAux, htc, ih, bump_valuesSum, List.length_cons]
      omega
    | none =>
      simp only [tallyAux, htc, ih, List.length_cons]
      omega

theorem tallyVotes_sum (ballots : List Ballot) (eliminated : List Uuid) :
    valuesSum (tallyVotes ballots eliminated).1 + (tallyVotes ballots eliminated).2 =
      ballots.length := by
  simpa [valuesSum, tallyVotes] using tallyAux_sum eliminated ballots ([], 0)

theorem tallyAux_keys_mem (eliminated : List Uuid) :
    ∀ (bs : List Ballot) (acc : List (Uuid × Nat) × Nat) (c : Uuid),
      c ∈ keysOf (tallyAux eliminated acc bs).1 ↔
        c ∈ keysOf acc.1 ∨ ∃ b ∈ bs, topChoice eliminated b.rankings = some c := by
  intro bs
  induction bs with
  | nil => intro acc c; simp [tallyAux]
  | cons b rest ih =>
    intro acc c
    cases htc : topChoice eliminated b.rankings with
    | some d =>
      simp only [tallyAux, htc, ih, mem_keysOf_bump, List.mem_cons]
      constructor
      · rintro ((h | rfl) | ⟨b', hb', h'⟩)
        · exact Or.inl h
        · exact Or.inr ⟨b, Or.inl rfl, htc⟩
        · exact Or.inr ⟨b', Or.inr hb', h'⟩
      · rintro (h | ⟨b', (rfl | hb'), h'⟩)
        · exact Or.inl (Or.inl h)
        · rw [htc] at h'
          exact Or.inl (Or.inr (Option.some.inj h').symm)
        · exact Or.inr ⟨b', hb', h'⟩
    | none =>
      simp only [tallyAux, htc, ih, List.mem_cons]
      constructor
      · rintro (h | ⟨b', hb', h'⟩)
        · exact Or.inl h
        · exact Or.inr ⟨b', Or.inr hb', h'⟩
      · rintro (h | ⟨b', (rfl | hb'), h'⟩)
        · exact Or.inl h
        · rw [htc] at h'; exact absurd h' (by simp)
        · exact Or.inr ⟨b', hb', h'⟩

theorem tallyVotes_keys_mem (ballots : List Ballot) (eliminated : List Uuid) (c : Uuid) :
    c ∈ keysOf (tallyVotes ballots eliminated).1 ↔
      ∃ b ∈ ballots, topChoice eliminated b.rankings = some c := by
  simpa [tallyVotes, keysOf] using tallyAux_keys_mem eliminated ballots ([], 0) c

theorem tallyAux_keys_nodup (eliminated : List Uuid) :
    ∀ (bs : List Ballot) (acc : List (Uuid × Nat) × Nat),
      (keysOf acc.1).Nodup → (keysOf (tallyAux eliminated acc bs).1).Nodup := by
  intro bs
  induction bs with
  | nil => intro acc h; simpa [tallyAux] using h
  | cons b rest ih =>
    intro acc h
    cases htc : topChoice eliminated b.rankings with
    | some c =>
      simpa [tallyAux, htc] using ih (bump acc.1 c, acc.2) (nodup_keysOf_bump _ _ h)
    | none => simpa [tallyAux, htc] using ih (acc.1, acc.2 + 1) h

theorem tallyVotes_keys_nodup (ballots : List Ballot) (eliminated : List Uuid) :
    (keysOf (tallyVotes ballots eliminated).1).Nodup := by
  simpa [tallyVotes] using tallyAux_keys_nodup eliminated ballots ([], 0) (by simp [keysOf])

theorem tallyAux_pos (eliminated : List Uuid) :
    ∀ (bs : List Ballot) (acc : List (Uuid × Nat) × Nat),
      (∀ kv ∈ acc.1, 0 < kv.2) → ∀ kv ∈ (tallyAux eliminated acc bs).1, 0 < kv.2 := by
  intro bs
  induction bs with
  | nil => intro acc h; simpa [tallyAux] using h
  | cons b rest ih =>
    intro acc h
    cases htc : topChoice eliminated b.rankings with
    | some c =>
      simpa [tallyAux, htc] using ih (bump acc.1 c, acc.2) (pos_of_mem_bump _ _ h)
    | none => simpa [tallyAux, htc] using ih (acc.1, acc.2 + 1) h

theorem tallyVotes_pos (ballots : List Ballot) (eliminated : List Uuid) :
    ∀ kv ∈ (tallyVotes ballots eliminated).1, 0 < kv.2 := by
  simpa [tallyVotes] using tallyAux_pos eliminated ballots ([], 0) (by simp)

theorem topChoice_mem (eliminated : List Uuid) (rankings : List Uuid) (c : Uuid)
    (h : topChoice eliminated rankings = some c) :
    c ∈ rankings ∧ c ∉ eliminated := by
  have hmem := List.mem_of_find?_eq_some h
  have hp := List.find?_some h
  simp only [decide_eq_true_eq] at hp
  exact ⟨hmem, by simpa using hp⟩

theorem topChoice_extend (eliminated : List Uuid) (e : Uuid) (rankings : List Uuid)
    (c : Uuid) (h : topChoice eliminated rankings = some c) (hne : c ≠ e) :
    topChoice (eliminated ++ [e]) rankings = some c := by
  induction rankings with
  | nil => simp [topChoice] at h
  | cons a rest ih =>
    by_cases ha : a ∈ eliminated
    · have h' : topChoice eliminated rest = some c := by
        simpa [topChoice, List.find?, ha] using h
      simpa [topChoice, List.find?, ha] using ih h'
    · have hac : a = c := by
        simpa [topChoice, List.find?, ha] using h
      subst hac
      simp [topChoice, List.find?, ha, hne]

/-! ## Lemmas: the win check -/

theorem mem_le_valuesSum (l : List (Uuid × Nat)) (kv : Uuid × Nat) (h : kv ∈ l) :
    kv.2 ≤ valuesSum l := by
  induction l with
  | nil => simp at h
  | cons hd tl ih =>
    rcases List.mem_cons.mp h with rfl | h'
    · simp [valuesSum]
    · have := ih h'
      simp only [valuesSum, List.map_cons, List.sum_cons] at *
      omega

theorem pair_sum_le_valuesSum (l : List (Uuid × Nat)) (a b : Uuid × Nat)
    (ha : a ∈ l) (hb : b ∈ l) (hne : a.1 ≠ b.1) :
    a.2 + b.2 ≤ valuesSum l := by
  induction l with
  | nil => simp at ha
  | cons hd tl ih =>
    rcases List.mem_cons.mp ha with rfl | ha'
    · rcases List.mem_cons.mp hb with rfl | hb'
      · exact absurd rfl hne
      · have := mem_le_valuesSum tl b hb'
        simp only [valuesSum, List.map_cons, List.sum_cons] at *
        omega
    · rcases List.mem_cons.mp hb with rfl | hb'
      · have := mem_le_valuesSum tl a ha'
        simp only [valuesSum, List.map_cons, List.sum_cons] at *
        omega
      · have := ih ha' hb'
        simp only [valuesSum, List.map_cons, List.sum_cons] at *
        omega

theorem find?_majority_eq_some_iff (l : List (Uuid × Nat)) (c : Uuid) :
    ((l.find? (fun kv => valuesSum l < 2 * kv.2)).map (·.1) = some c) ↔
      ∃ v, (c, v) ∈ l ∧ valuesSum l < 2 * v := by
  constructor
  · intro h
    obtain ⟨kv, hfind, hfst⟩ := Option.map_eq_some'.mp h
    have hmem := List.mem_of_find?_eq_some hfind
    have hp := List.find?_some hfind
    simp only [decide_eq_true_eq] at hp
    exact ⟨kv.2, by rwa [← hfst, Prod.mk.eta], hp⟩
  · rintro ⟨v, hmem, hlt⟩
    have hex : ∃ x ∈ l, (fun kv : Uuid × Nat => decide (valuesSum l < 2 * kv.2)) x = true := by
      exact ⟨(c, v), hmem, by simpa using hlt⟩
    obtain ⟨kv, hfind⟩ := Option.isSome_iff_exists.mp (List.find?_isSome.mpr hex)
    have hkvmem := List.mem_of_find?_eq_some hfind
    have hkvp := List.find?_some hfind
    simp only [decide_eq_true_eq] at hkvp
    have hkey : kv.1 = c := by
      by_contra hne
      have hsum := pair_sum_le_valuesSum l kv (c, v) hkvmem hmem hne
      simp only at hsum
      omega
    rw [hfind]
    simp [hkey]

theorem find?_majority_singleton (c : Uuid) (v : Nat) (hv : 0 < v) :
    (([(c, v)].find? (fun kv => valuesSum [(c, v)] < 2 * kv.2)).map (·.1)) = some c := by
  have : valuesSum [(c, v)] < 2 * v := by
    simp only [valuesSum, List.map_cons, List.map_nil, List.sum_cons, List.sum_nil]
    omega
  simp [List.find?, this]

/-! ## Lemmas: round well-formedness and loop structure -/

theorem computeRound_voteCounts (env : HashEnv) (bs : List Ballot) (m : TieBreakMethod)
    (elim : List Uuid) (prev : List Round) (k : Nat) :
    (computeRound env bs m elim prev k).voteCounts = (tallyVotes bs elim).1 := rfl

theorem computeRound_exhausted (env : HashEnv) (bs : List Ballot) (m : TieBreakMethod)
    (elim : List Uuid) (prev : List Round) (k : Nat) :
    (computeRound env bs m elim prev k).exhaustedBallots = (tallyVotes bs elim).2 := rfl

theorem computeRound_winner (env : HashEnv) (bs : List Ballot) (m : TieBreakMethod)
    (elim : List Uuid) (prev : List Round) (k : Nat) :
    (computeRound env bs m elim prev k).winner =
      ((tallyVotes bs elim).1.find?
        (fun kv => valuesSum (tallyVotes bs elim).1 < 2 * kv.2)).map (·.1) := rfl

theorem computeRound_eliminated_def (env : HashEnv) (bs : List Ballot) (m : TieBreakMethod)
    (elim : List Uuid) (prev : List Round) (k : Nat) :
    (computeRound env bs m elim prev k).eliminated =
      (if (computeRound env bs m elim prev k).winner = none ∧
          1 < (tallyVotes bs elim).1.length then
        chooseElimination env bs m (tallyVotes bs elim).1 prev
      else (none, none)).1 := rfl

theorem computeRound_good (env : HashEnv) (bs : List Ballot) (m : TieBreakMethod)
    (elim : List Uuid) (prev : List Round) (k : Nat) :
    RoundGood bs (computeRound env bs m elim prev k) := by
  refine ⟨?_, ?_, ?_, rfl, rfl, rfl⟩
  · exact tallyVotes_pos bs elim
  · exact tallyVotes_keys_nodup bs elim
  · exact tallyVotes_sum bs elim

/-! ## Lemmas: tie-break results come from the tied set -/

theorem tryFirstChoiceTiebreak_mem (ballots : List Ballot) (tied : List Uuid) (w : Uuid)
    (h : tryFirstChoiceTiebreak ballots tied = some w) : w ∈ tied := by
  unfold tryFirstChoiceTiebreak at h
  cases hmin : (tied.map (countFirstChoice ballots)).min? with
  | none => rw [hmin] at h; exact absurd h (by simp)
  | some minFc =>
    rw [hmin] at h
    dsimp only at h
    cases hfil : tied.filter (fun id => countFirstChoice ballots id = minFc) with
    | nil => rw [hfil] at h; exact absurd h (by simp)
    | cons only rest =>
      cases rest with
      | nil =>
        rw [hfil] at h
        dsimp only at h
        obtain rfl := Option.some.inj h
        have hm : only ∈ tied.filter (fun id => countFirstChoice ballots id = minFc) := by
          rw [hfil]; exact List.mem_cons_self _ _
        exact List.mem_of_mem_filter hm
      | cons b rest' => rw [hfil] at h; exact absurd h (by simp)

theorem presentVotes_mem (tied : List Uuid) (r : Round) (kv : Uuid × Nat)
    (h : kv ∈ presentVotes tied r) :
    kv.1 ∈ tied ∧ roundLookup r kv.1 = some kv.2 := by
  obtain ⟨id, hid, hf⟩ := List.mem_filterMap.mp h
  cases hl : roundLookup r id with
  | none => rw [hl] at hf; exact absurd hf (by simp)
  | some v =>
    rw [hl] at hf
    simp only [Option.map_some'] at hf
    obtain rfl := Option.some.inj hf
    exact ⟨hid, hl⟩

theorem priorRoundStep_mem (tied : List Uuid) (r : Round) (c : Uuid)
    (h : priorRoundStep tied r = some c) : c ∈ tied := by
  unfold priorRoundStep at h
  cases hs : (presentVotes tied r).insertionSort (fun a b => a.2 ≤ b.2) with
  | nil => rw [hs] at h; exact absurd h (by simp)
  | cons a tl =>
    cases tl with
    | nil => rw [hs] at h; exact absurd h (by simp)
    | cons b tl' =>
      rw [hs] at h
      dsimp only at h
      by_cases hab : a.2 < b.2
      · rw [if_pos hab] at h
        obtain rfl := Option.some.inj h
        have hmem : a ∈ (presentVotes tied r).insertionSort (fun x y => x.2 ≤ y.2) := by
          rw [hs]; exact List.mem_cons_self _ _
        have hpv := (List.perm_insertionSort (fun x y : Uuid × Nat => x.2 ≤ y.2)
          (presentVotes tied r)).mem_iff.mp hmem
        exact (presentVotes_mem tied r a hpv).1
      · rw [if_neg hab] at h; exact absurd h (by simp)

theorem priorRoundWalk_mem (tied : List Uuid) (l : List Round) (c : Uuid)
    (h : priorRoundWalk tied l = some c) : c ∈ tied := by
  induction l with
  | nil => simp [priorRoundWalk] at h
  | cons r rest ih =>
    unfold priorRoundWalk at h
    cases hstep : priorRoundStep tied r with
    | some d =>
      rw [hstep] at h
      obtain rfl := Option.some.inj h
      exact priorRoundStep_mem tied r d hstep
    | none => rw [hstep] at h; exact ih h

theorem tryPriorRoundTiebreak_mem (tied : List Uuid) (rounds : List Round) (w : Uuid)
    (h : tryPriorRoundTiebreak tied rounds = some w) : w ∈ tied :=
  priorRoundWalk_mem tied rounds.reverse w h

theorem tryMostVotesToDistribute_mem (ballots : List Ballot) (tied : List Uuid) (w : Uuid)
    (h : tryMostVotesToDistribute ballots tied = some w) : w ∈ tied := by
  unfold tryMostVotesToDistribute at h
  cases hmax : (tied.map (redistribution ballots tied)).max? with
  | none => rw [hmax] at h; exact absurd h (by simp)
  | some maxR =>
    rw [hmax] at h
    dsimp only at h
    cases hfil : tied.filter (fun id => redistribution ballots tied id = maxR) with
    | nil => rw [hfil] at h; exact absurd h (by simp)
    | cons only rest =>
      cases rest with
      | nil =>
        rw [hfil] at h
        dsimp only at h
        obtain rfl := Option.some.inj h
        have hm : only ∈ tied.filter (fun id => redistribution ballots tied id = maxR) := by
          rw [hfil]; exact List.mem_cons_self _ _
        exact List.mem_of_mem_filter hm
      | cons b rest' => rw [hfil] at h; exact absurd h (by simp)

theorem randomTiebreak_mem (env : HashEnv) (m : TieBreakMethod) (tied : List Uuid)
    (henv : env.Ok) (hne : tied ≠ []) : randomTiebreak env m tied ∈ tied := by
  have hlen : 0 < tied.length := List.length_pos.mpr hne
  have hidx := henv.2 (seedOf m) tied.length hlen
  unfold randomTiebreak
  rw [List.getD_eq_getElem tied 0 hidx]
  exact List.getElem_mem hidx

theorem breakTieComprehensive_mem (env : HashEnv) (ballots : List Ballot)
    (m : TieBreakMethod) (tied : List Uuid) (prev : List Round)
    (henv : env.Ok) (hne : tied ≠ []) :
    (breakTieComprehensive env ballots m tied prev).1 ∈ tied := by
  unfold breakTieComprehensive
  cases h1 : tryFirstChoiceTiebreak ballots tied with
  | some w => exact tryFirstChoiceTiebreak_mem ballots tied w h1
  | none =>
    cases h2 : tryPriorRoundTiebreak tied prev with
    | some w => exact tryPriorRoundTiebreak_mem tied prev w h2
    | none =>
      cases h3 : tryMostVotesToDistribute ballots tied with
      | some w => exact tryMostVotesToDistribute_mem ballots tied w h3
      | none => exact randomTiebreak_mem env m tied henv hne

theorem chooseElimination_spec (env : HashEnv) (bs : List Ballot) (m : TieBreakMethod)
    (counts : List (Uuid × Nat)) (prev : List Round)
    (henv : env.Ok) (hlen : 1 < counts.length) :
    ∃ e, (chooseElimination env bs m counts prev).1 = some e ∧ e ∈ keysOf counts := by
  have hne : counts ≠ [] := by
    intro hc; rw [hc] at hlen; simp at hlen
  cases hmin : (counts.map (·.2)).min? with
  | none =>
    rw [List.min?_eq_none_iff] at hmin
    exact absurd (List.map_eq_nil_iff.mp hmin) hne
  | some minV =>
    obtain ⟨hmem, -⟩ := List.min?_eq_some_iff'.mp hmin
    obtain ⟨kv, hkv, hkv2⟩ := List.mem_map.mp hmem
    have hcanne : (counts.filter (fun kv => kv.2 = minV)).map (·.1) ≠ [] := by
      have : kv ∈ counts.filter (fun kv => kv.2 = minV) :=
        List.mem_filter.mpr ⟨hkv, by simp [hkv2]⟩
      intro hc
      rw [List.map_eq_nil_iff] at hc
      rw [hc] at this
      simp at this
    have hperm := henv.1 ((counts.filter (fun kv => kv.2 = minV)).map (·.1))
    have htiedne : env.perm ((counts.filter (fun kv => kv.2 = minV)).map (·.1)) ≠ [] := by
      intro hc
      rw [hc] at hperm
      exact hcanne hperm.symm.eq_nil
    have hsub : ∀ e ∈ env.perm ((counts.filter (fun kv => kv.2 = minV)).map (·.1)),
        e ∈ keysOf counts := by
      intro e he
      have : e ∈ (counts.filter (fun kv => kv.2 = minV)).map (·.1) :=
        hperm.mem_iff.mp he
      obtain ⟨kv', hkv', rfl⟩ := List.mem_map.mp this
      exact List.mem_map.mpr ⟨kv', List.mem_of_mem_filter hkv', rfl⟩
    unfold chooseElimination
    rw [hmin]
    dsimp only [Option.getD_some]
    cases htied : env.perm ((counts.filter (fun kv => kv.2 = minV)).map (·.1)) with
    | nil => exact absurd htied htiedne
    | cons a tl =>
      cases tl with
      | nil =>
        refine ⟨a, rfl, ?_⟩
        exact hsub a (htied ▸ List.mem_cons_self _ _)
      | cons b tl' =>
        refine ⟨(breakTieComprehensive env bs m (a :: b :: tl') prev).1, rfl, ?_⟩
        have hmem' := breakTieComprehensive_mem env bs m (a :: b :: tl') prev henv (by simp)
        exact hsub _ (htied ▸ hmem')

theorem runRounds_ne_nil (env : HashEnv) (bs : List Ballot) (m : TieBreakMethod) :
    ∀ (fuel : Nat) (elim : List Uuid) (prev : List Round) (k : Nat) (rs : List Round),
      runRounds env bs m fuel elim prev k = .ok rs → rs ≠ [] := by
  intro fuel
  induction fuel with
  | zero => intro elim prev k rs h; exact absurd h (by simp [runRounds])
  | succ f ih =>
    intro elim prev k rs h
    simp only [runRounds] at h
    split at h
    · obtain rfl := Except.ok.inj h
      simp
    · cases hrec : runRounds env bs m f
          (match (computeRound env bs m elim prev k).eliminated with
           | some e => elim ++ [e]
           | none => elim) (prev ++ [computeRound env bs m elim prev k]) (k + 1) with
      | error e => rw [hrec] at h; simp [Except.map] at h
      | ok rest =>
        rw [hrec] at h
        simp only [Except.map] at h
        obtain rfl := Except.ok.inj h
        simp

theorem runRounds_mem_good (env : HashEnv) (bs : List Ballot) (m : TieBreakMethod) :
    ∀ (fuel : Nat) (elim : List Uuid) (prev : List Round) (k : Nat) (rs : List Round),
      runRounds env bs m fuel elim prev k = .ok rs → ∀ r ∈ rs, RoundGood bs r := by
  intro fuel
  induction fuel with
  | zero => intro elim prev k rs h; exact absurd h (by simp [runRounds])
  | succ f ih =>
    intro elim prev k rs h
    simp only [runRounds] at h
    split at h
    · obtain rfl := Except.ok.inj h
      intro r hr
      obtain rfl := List.mem_singleton.mp hr
      exact computeRound_good env bs m elim prev k
    · cases hrec : runRounds env bs m f
          (match (computeRound env bs m elim prev k).eliminated with
           | some e => elim ++ [e]
           | none => elim) (prev ++ [computeRound env bs m elim prev k]) (k + 1) with
      | error e => rw [hrec] at h; simp [Except.map] at h
      | ok rest =>
        rw [hrec] at h
        simp only [Except.map] at h
        obtain rfl := Except.ok.inj h
        intro r hr
        rcases List.mem_cons.mp hr with rfl | hr'
        · exact computeRound_good env bs m elim prev k
        · exact ih _ _ _ _ hrec r hr'

theorem runRounds_last_break (env : HashEnv) (bs : List Ballot) (m : TieBreakMethod) :
    ∀ (fuel : Nat) (elim : List Uuid) (prev : List Round) (k : Nat) (rs : List Round),
      runRounds env bs m fuel elim prev k = .ok rs →
      ∃ rl, rs.getLast? = some rl ∧ (rl.winner.isSome ∨ rl.voteCounts.length ≤ 1) := by
  intro fuel
  induction fuel with
  | zero => intro elim prev k rs h; exact absurd h (by simp [runRounds])
  | succ f ih =>
    intro elim prev k rs h
    simp only [runRounds] at h
    split at h
    · rename_i hcond
      obtain rfl := Except.ok.inj h
      exact ⟨_, by simp, hcond⟩
    · cases hrec : runRounds env bs m f
          (match (computeRound env bs m elim prev k).eliminated with
           | some e => elim ++ [e]
           | none => elim) (prev ++ [computeRound env bs m elim prev k]) (k + 1) with
      | error e => rw [hrec] at h; simp [Except.map] at h
      | ok rest =>
        rw [hrec] at h
        simp only [Except.map] at h
        obtain rfl := Except.ok.inj h
        obtain ⟨rl, hrl, hbr⟩ := ih _ _ _ _ hrec
        have hne := runRounds_ne_nil env bs m f _ _ _ _ hrec
        refine ⟨rl, ?_, hbr⟩
        rw [List.getLast?_cons]
        cases hrest : rest.getLast? with
        | none => exact absurd (List.getLast?_eq_none_iff.mp hrest) hne
        | some x =>
          rw [hrest] at hrl
          simpa [hrest] using hrl

theorem exists_mem_ne (l : List Uuid) (e : Uuid) (hnd : l.Nodup) (hlen : 1 < l.length) :
    ∃ c ∈ l, c ≠ e := by
  cases l with
  | nil => simp at hlen
  | cons a tl =>
    cases tl with
    | nil => simp at hlen
    | cons b tl' =>
      have hab : a ≠ b := by
        have := List.nodup_cons.mp hnd
        intro hc
        exact this.1 (hc ▸ List.mem_cons_self _ _)
      by_cases hae : a = e
      · exact ⟨b, List.mem_cons_of_mem _ (List.mem_cons_self _ _), fun hc => hab (hae ▸ hc ▸ rfl)⟩
      · exact ⟨a, List.mem_cons_self _ _, hae⟩

theorem keysOf_ne_nil_of_mem (l : List (Uuid × Nat)) (c : Uuid) (h : c ∈ keysOf l) :
    l ≠ [] := by
  intro hc
  rw [hc] at h
  simp [keysOf] at h

theorem runRounds_winner_none (env : HashEnv) (bs : List Ballot) (m : TieBreakMethod)
    (henv : env.Ok) :
    ∀ (fuel : Nat) (elim : List Uuid) (prev : List Round) (k : Nat) (rs : List Round),
      runRounds env bs m fuel elim prev k = .ok rs →
      rs.getLast?.bind (·.winner) = none →
      rs = [computeRound env bs m elim prev k] ∧ (tallyVotes bs elim).1 = [] := by
  intro fuel
  induction fuel with
  | zero => intro elim prev k rs h hw; exact absurd h (by simp [runRounds])
  | succ f ih =>
    intro elim prev k rs h hw
    simp only [runRounds] at h
    split at h
    · rename_i hcond
      obtain rfl := Except.ok.inj h
      have hw2 : (computeRound env bs m elim prev k).winner = none := by
        simpa using hw
      refine ⟨rfl, ?_⟩
      rcases hcond with hws | hlen
      · rw [hw2] at hws; simp at hws
      · rcases Nat.lt_or_ge (tallyVotes bs elim).1.length 1 with h0 | h1
        · exact List.length_eq_zero.mp (by omega)
        · exfalso
          have hlen1 : (tallyVotes bs elim).1.length = 1 := by
            rw [computeRound_voteCounts] at hlen
            omega
          obtain ⟨kv, hkv⟩ := List.length_eq_one.mp hlen1
          have hpos := tallyVotes_pos bs elim kv (by rw [hkv]; exact List.mem_cons_self _ _)
          have hwin := computeRound_winner env bs m elim prev k
          rw [hw2, hkv] at hwin
          rw [← Prod.mk.eta (p := kv)] at hwin
          exact absurd hwin.symm (by
            rw [find?_majority_singleton kv.1 kv.2 hpos]
            simp)
    · rename_i hcond
      exfalso
      push_neg at hcond
      obtain ⟨hwnone0, hlen2⟩ := hcond
      have hwnone : (computeRound env bs m elim prev k).winner = none :=
        Option.not_isSome_iff_eq_none.mp (by simpa using hwnone0)
      rw [computeRound_voteCounts] at hlen2
      have hlen2' : 1 < (tallyVotes bs elim).1.length := by omega
      obtain ⟨e, helim1, hekeys⟩ :=
        chooseElimination_spec env bs m (tallyVotes bs elim).1 prev henv hlen2'
      have helim : (computeRound env bs m elim prev k).eliminated = some e := by
        rw [computeRound_eliminated_def]
        rw [if_pos ⟨hwnone, hlen2'⟩]
        exact helim1
      rw [helim] at h
      dsimp only at h
      cases hrec : runRounds env bs m f (elim ++ [e])
          (prev ++ [computeRound env bs m elim prev k]) (k + 1) with
      | error err => rw [hrec] at h; simp [Except.map] at h
      | ok rest =>
        rw [hrec] at h
        simp only [Except.map] at h
        obtain rfl := Except.ok.inj h
        have hrestne := runRounds_ne_nil env bs m f _ _ _ _ hrec
        have hw' : rest.getLast?.bind (·.winner) = none := by
          rw [List.getLast?_cons] at hw
          cases hrest : rest.getLast? with
          | none => exact absurd (List.getLast?_eq_none_iff.mp hrest) hrestne
          | some x =>
            rw [hrest] at hw
            simpa [hrest] using hw
        obtain ⟨-, hempty⟩ := ih (elim ++ [e]) _ (k + 1) rest hrec hw'
        have hnodup := tallyVotes_keys_nodup bs elim
        obtain ⟨c, hc, hcne⟩ := exists_mem_ne (keysOf (tallyVotes bs elim).1) e hnodup
          (by simpa [keysOf] using hlen2')
        obtain ⟨b', hb', htop⟩ := (tallyVotes_keys_mem bs elim c).mp hc
        have htop' := topChoice_extend elim e b'.rankings c htop hcne
        have hc' : c ∈ keysOf (tallyVotes bs (elim ++ [e])).1 :=
          (tallyVotes_keys_mem bs (elim ++ [e]) c).mpr ⟨b', hb', htop'⟩
        exact keysOf_ne_nil_of_mem _ c hc' hempty

theorem majority_gt_half_iff (v t : ℕ) : ((v : ℚ) > (t : ℚ) / 2) ↔ 2 * v > t := by
  rw [gt_iff_lt, div_lt_iff₀ (by norm_num : (0 : ℚ) < 2)]
  constructor
  · intro h
    have h' : t < v * 2 := by exact_mod_cast h
    omega
  · intro h
    have h' : t < v * 2 := by omega
    exact_mod_cast h'

theorem tabulate_ok_inv (env : HashEnv) (c : List Candidate) (b : List Ballot)
    (m : TieBreakMethod) (res : RcvResult) (h : tabulate env c b m = .ok res) :
    validateBallots c b = .ok () ∧ 2 ≤ c.length ∧
    ∃ rs, runRounds env b m c.length [] [] 1 = .ok rs ∧
      res.rounds = rs ∧
      res.winner = (rs.getLast?.bind (·.winner) <|>
        rs.getLast?.bind (fun r => (r.voteCounts.head?).map (·.1))) ∧
      res.totalBallots = b.length ∧
      res.exhaustedBallots = ((rs.getLast?).map (·.exhaustedBallots)).getD 0 := by
  unfold tabulate at h
  cases hval : validateBallots c b with
  | error e =>
    rw [hval] at h
    exact absurd h (by simp [Bind.bind, Except.bind])
  | ok u =>
    obtain rfl : u = () := rfl
    rw [hval] at h
    simp only [Bind.bind, Except.bind] at h
    split at h
    · exact absurd h (by simp [throw, throwThe, MonadExceptOf.throw])
    · rename_i hlen
      cases hrr : runRounds env b m c.length [] [] 1 with
      | error e => rw [hrr] at h; exact absurd h (by simp)
      | ok rs =>
        rw [hrr] at h
        simp only [pure, Except.pure] at h
        obtain rfl := (Except.ok.inj h).symm
        exact ⟨rfl, by omega, rs, rfl, rfl, rfl, rfl, rfl⟩

theorem envId_ok : envId.Ok :=
  ⟨fun l => List.Perm.refl l, fun _ _ h => h⟩

theorem envRev_ok : envRev.Ok :=
  ⟨fun l => List.reverse_perm l, fun _ _ h => h⟩

/-- Claim C5: for every input and every round `r` of the tabulation result,
the sum of `r`'s vote counts plus `r`'s exhausted-ballot count equals the
total number of ballots. -/
theorem C5_round_conservation (env : HashEnv) (c : List Candidate) (b : List Ballot)
    (m : TieBreakMethod) (res : RcvResult) (h : tabulate env c b m = .ok res) :
    ∀ r ∈ res.rounds, valuesSum r.voteCounts + r.exhaustedBallots = b.length := by
  obtain ⟨-, -, rs, hrr, hrows, -⟩ := tabulate_ok_inv env c b m res h
  rw [hrows]
  intro r hr
  exact (runRounds_mem_good env b m c.length [] [] 1 rs hrr r hr).2.2.1

/-- Witness for C5 at the first-round-majority scenario: 5 ballots, and the
recorded round's tallies (3 + 1 + 1) plus 0 exhausted equal 5. -/
theorem C5_witness : ∃ res, tabulate envId cands3 ballotsMaj (.random 42) = .ok res ∧
    res.rounds ≠ [] ∧
    ∀ r ∈ res.rounds, valuesSum r.voteCounts + r.exhaustedBallots = 5 := by
  cases h : tabulate envId cands3 ballotsMaj (.random 42) with
  | error e =>
    have hne : errOf (tabulate envId cands3 ballotsMaj (.random 42)) = none := by decide
    rw [h] at hne
    simp [errOf] at hne
  | ok res =>
    refine ⟨res, rfl, ?_, ?_⟩
    · have hlen : (tabulate envId cands3 ballotsMaj (.random 42)).toOption.map
          (fun r => r.rounds.length) = some 1 := by decide
      rw [h] at hlen
      simp only [Except.toOption, Option.map_some'] at hlen
      intro hc
      rw [hc] at hlen
      simp at hlen
    · intro r hr
      have := C5_round_conservation envId cands3 ballotsMaj (.random 42) res h r hr
      simpa using this

/-- Claim C7: in every round a candidate is declared that round's winner
exactly when its tally strictly exceeds the majority threshold `total / 2`
(with `total` the sum of that round's tallies), and the final winner is the
last round's declared winner if any; when the last round declares no winner
the final winner is none, all ballots are exhausted, and there is no sole
remaining active candidate (every candidate is still active, so the spec's
fallback clause is vacuous). -/
theorem C7_winner_rule (env : HashEnv) (c : List Candidate) (b : List Ballot)
    (m : TieBreakMethod) (res : RcvResult) (henv : env.Ok)
    (h : tabulate env c b m = .ok res) :
    (∀ r ∈ res.rounds,
      r.totalVotes = valuesSum r.voteCounts ∧
      r.majorityThreshold = (r.totalVotes : ℚ) / 2 ∧
      ∀ w, r.winner = some w ↔ ∃ v, (w, v) ∈ r.voteCounts ∧
        ((v : ℚ) > r.majorityThreshold)) ∧
    (∀ w, res.rounds.getLast?.bind (·.winner) = some w → res.winner = some w) ∧
    (res.rounds.getLast?.bind (·.winner) = none →
      res.winner = none ∧ res.exhaustedBallots = b.length ∧
      2 ≤ ((c.map (·.id)).filter
        (fun cid => ¬ (res.rounds.filterMap (·.eliminated)).contains cid)).length) := by
  obtain ⟨-, hc2, rs, hrr, hrows, hwin, -, hexh⟩ := tabulate_ok_inv env c b m res h
  refine ⟨?_, ?_, ?_⟩
  · rw [hrows]
    intro r hr
    obtain ⟨-, -, -, htot, hthr, hwinr⟩ := runRounds_mem_good env b m c.length [] [] 1 rs hrr r hr
    refine ⟨htot, hthr, ?_⟩
    intro w
    rw [hwinr, hthr, htot]
    have := find?_majority_eq_some_iff r.voteCounts w
    rw [this]
    constructor
    · rintro ⟨v, hv, hlt⟩
      exact ⟨v, hv, (majority_gt_half_iff v (valuesSum r.voteCounts)).mpr hlt⟩
    · rintro ⟨v, hv, hlt⟩
      exact ⟨v, hv, (majority_gt_half_iff v (valuesSum r.voteCounts)).mp hlt⟩
  · intro w hlast
    rw [hwin, hrows] at *
    rw [hlast]
    rfl
  · intro hnone
    rw [hrows] at hnone
    obtain ⟨hsingle, hempty⟩ :=
      runRounds_winner_none env b m henv c.length [] [] 1 rs hrr hnone
    have hcounts : (computeRound env b m [] [] 1).voteCounts = [] := by
      rw [computeRound_voteCounts, hempty]
    have hnotcond : ¬ ((computeRound env b m [] [] 1).winner = none ∧
        1 < (tallyVotes b []).1.length) := by
      rintro ⟨-, hlen⟩
      rw [hempty] at hlen
      simp at hlen
    have helim : (computeRound env b m [] [] 1).eliminated = none := by
      rw [computeRound_eliminated_def, if_neg hnotcond]
    refine ⟨?_, ?_, ?_⟩
    · rw [hwin, hnone]
      simp only [Option.none_orElse]
      rw [hsingle]
      simp [hcounts]
    · rw [hexh, hsingle]
      have hgood := runRounds_mem_good env b m c.length [] [] 1 rs hrr
        (computeRound env b m [] [] 1) (by rw [hsingle]; exact List.mem_cons_self _ _)
      obtain ⟨-, -, hsum, -⟩ := hgood
      rw [computeRound_voteCounts, hempty] at hsum
      simp only [valuesSum, List.map_nil, List.sum_nil, Nat.zero_add] at hsum
      simp only [List.getLast?_singleton, Option.map_some', Option.getD_some]
      rw [computeRound_exhausted]
      have : (tallyVotes b []).2 = b.length := by
        have h2 := tallyVotes_sum b []
        rw [hempty] at h2
        simpa [valuesSum] using h2
      exact this
    · rw [hrows, hsingle]
      simp only [List.filterMap, helim]
      have : ((c.map (·.id)).filter
          (fun cid => ¬ ([] : List Uuid).contains cid)).length = c.length := by
        simp
      omega

/-- Witness for C7 at the elimination-and-transfer scenario: the recorded
winner facts hold on a concrete two-round tabulation. -/
theorem C7_witness : envId.Ok ∧
    ∃ res, tabulate envId cands3 ballotsElim (.random 42) = .ok res ∧
      (∀ r ∈ res.rounds, ∀ w, r.winner = some w ↔
        ∃ v, (w, v) ∈ r.voteCounts ∧ ((v : ℚ) > r.majorityThreshold)) ∧
      res.winner = some 1 := by
  refine ⟨envId_ok, ?_⟩
  cases h : tabulate envId cands3 ballotsElim (.random 42) with
  | error e =>
    have hne : errOf (tabulate envId cands3 ballotsElim (.random 42)) = none := by decide
    rw [h] at hne
    simp [errOf] at hne
  | ok res =>
    have hc7 := C7_winner_rule envId cands3 ballotsElim (.random 42) res envId_ok h
    refine ⟨res, rfl, fun r hr w => ((hc7.1 r hr).2.2 w), ?_⟩
    have hw : (tabulate envId cands3 ballotsElim (.random 42)).toOption.map (·.winner) =
        some (some 1) := by decide
    rw [h] at hw
    simpa [Except.toOption] using hw

theorem checkBallotRankings_ok (ids : List Uuid) (bid : Uuid) :
    ∀ (rks seen : List Uuid), (∀ x ∈ rks, x ∈ ids) → rks.Nodup →
      (∀ x ∈ rks, x ∉ seen) → checkBallotRankings ids bid seen rks = .ok () := by
  intro rks
  induction rks with
  | nil => intro seen _ _ _; rfl
  | cons c rest ih =>
    intro seen hmem hnd hseen
    have hc : c ∈ ids := hmem c (List.mem_cons_self _ _)
    have hcs : c ∉ seen := hseen c (List.mem_cons_self _ _)
    unfold checkBallotRankings
    rw [if_neg (by simp [hc]), if_neg (by simp [hcs])]
    refine ih (c :: seen) (fun x hx => hmem x (List.mem_cons_of_mem _ hx))
      (List.nodup_cons.mp hnd).2 ?_
    intro x hx
    simp only [List.mem_cons, not_or]
    constructor
    · intro hxc
      exact (List.nodup_cons.mp hnd).1 (hxc ▸ hx)
    · exact hseen x (List.mem_cons_of_mem _ hx)

theorem validateBallots_ok (cands : List Candidate) (bs : List Ballot)
    (hmem : ∀ b ∈ bs, ∀ x ∈ b.rankings, x ∈ cands.map (·.id))
    (hnd : ∀ b ∈ bs, b.rankings.Nodup) :
    validateBallots cands bs = .ok () := by
  induction bs with
  | nil => rfl
  | cons b rest ih =>
    have hchk := checkBallotRankings_ok (cands.map (·.id)) b.id b.rankings []
      (hmem b (List.mem_cons_self _ _)) (hnd b (List.mem_cons_self _ _)) (by simp)
    have hrest := ih (fun b' hb' => hmem b' (List.mem_cons_of_mem _ hb'))
      (fun b' hb' => hnd b' (List.mem_cons_of_mem _ hb'))
    unfold validateBallots
    rw [hchk]
    simpa [Bind.bind, Except.bind] using hrest

theorem length_filter_ne (l : List Uuid) (e : Uuid) (hnd : l.Nodup) (he : e ∈ l) :
    (l.filter (fun x => x ≠ e)).length + 1 = l.length := by
  induction l with
  | nil => simp at he
  | cons a tl ih =>
    obtain ⟨hna, hndtl⟩ := List.nodup_cons.mp hnd
    rcases List.mem_cons.mp he with heq | hetl
    · subst heq
      have hall : tl.filter (fun x => x ≠ e) = tl := by
        apply List.filter_eq_self.mpr
        intro x hx
        simp only [decide_eq_true_eq]
        intro hc
        exact hna (hc ▸ hx)
      simp [List.filter_cons, hall]
      intro a ha hc
      exact hna (hc ▸ ha)
    · have hae : a ≠ e := fun hc => hna (hc ▸ hetl)
      have := ih hndtl hetl
      simp only [List.filter_cons, decide_eq_true_eq]
      rw [if_pos hae]
      simp only [List.length_cons]
      omega

theorem runRounds_terminates (env : HashEnv) (bs : List Ballot) (m : TieBreakMethod)
    (cids : List Uuid) (henv : env.Ok)
    (hsub : ∀ b ∈ bs, ∀ x ∈ b.rankings, x ∈ cids) :
    ∀ (fuel : Nat) (elim : List Uuid) (prev : List Round) (k : Nat),
      elim.Nodup → (∀ e ∈ elim, e ∈ cids.dedup) →
      (cids.dedup.filter (fun x => ¬ elim.contains x)).length ≤ fuel →
      1 ≤ fuel →
      ∃ rs, runRounds env bs m fuel elim prev k = .ok rs ∧ rs.length ≤ fuel := by
  intro fuel
  induction fuel with
  | zero => intro elim prev k _ _ _ h1; omega
  | succ f ih =>
    intro elim prev k hnd helimsub hflen _
    by_cases hcond : (computeRound env bs m elim prev k).winner.isSome ∨
        (computeRound env bs m elim prev k).voteCounts.length ≤ 1
    · refine ⟨[computeRound env bs m elim prev k], ?_, by simp⟩
      simp only [runRounds, if_pos hcond]
    · push_neg at hcond
      obtain ⟨hwnone0, hlen2⟩ := hcond
      have hwnone : (computeRound env bs m elim prev k).winner = none :=
        Option.not_isSome_iff_eq_none.mp (by simpa using hwnone0)
      rw [computeRound_voteCounts] at hlen2
      have hlen2' : 1 < (tallyVotes bs elim).1.length := by omega
      obtain ⟨e, helim1, hekeys⟩ :=
        chooseElimination_spec env bs m (tallyVotes bs elim).1 prev henv hlen2'
      have helim : (computeRound env bs m elim prev k).eliminated = some e := by
        rw [computeRound_eliminated_def, if_pos ⟨hwnone, hlen2'⟩]
        exact helim1
      -- facts about e and the key set
      obtain ⟨be, hbe, htope⟩ := (tallyVotes_keys_mem bs elim e).mp hekeys
      have hetop := topChoice_mem elim be.rankings e htope
      have henotelim : e ∉ elim := hetop.2
      have hecids : e ∈ cids.dedup := List.mem_dedup.mpr (hsub be hbe e hetop.1)
      -- every key is an allowed, not-yet-eliminated candidate
      have hkeysub : keysOf (tallyVotes bs elim).1 ⊆
          cids.dedup.filter (fun x => ¬ elim.contains x) := by
        intro x hx
        obtain ⟨bx, hbx, htopx⟩ := (tallyVotes_keys_mem bs elim x).mp hx
        have hx2 := topChoice_mem elim bx.rankings x htopx
        refine List.mem_filter.mpr ⟨List.mem_dedup.mpr (hsub bx hbx x hx2.1), ?_⟩
        simp [hx2.2]
      have hRnodup : (cids.dedup.filter (fun x => ¬ elim.contains x)).Nodup :=
        (List.nodup_dedup cids).filter _
      have heR : e ∈ cids.dedup.filter (fun x => ¬ elim.contains x) :=
        List.mem_filter.mpr ⟨hecids, by simp [henotelim]⟩
      have h2R : 2 ≤ (cids.dedup.filter (fun x => ¬ elim.contains x)).length := by
        have hsp := (tallyVotes_keys_nodup bs elim).subperm hkeysub
        have := hsp.length_le
        have hkl : (keysOf (tallyVotes bs elim).1).length =
            (tallyVotes bs elim).1.length := by simp [keysOf]
        omega
      -- the remaining-candidates list shrinks by exactly one
      have hshrink : (cids.dedup.filter (fun x => ¬ (elim ++ [e]).contains x)).length + 1 =
          (cids.dedup.filter (fun x => ¬ elim.contains x)).length := by
        have hsplit : cids.dedup.filter (fun x => ¬ (elim ++ [e]).contains x) =
            (cids.dedup.filter (fun x => ¬ elim.contains x)).filter (fun x => x ≠ e) := by
          rw [List.filter_filter]
          apply List.filter_congr
          intro x hx
          by_cases hxe : x = e <;> by_cases hxel : x ∈ elim <;> simp [hxe, hxel]
        rw [hsplit]
        exact length_filter_ne _ e hRnodup heR
      have hnd' : (elim ++ [e]).Nodup := by
        simp [List.nodup_append, hnd, henotelim]
      have hsub' : ∀ x ∈ elim ++ [e], x ∈ cids.dedup := by
        intro x hx
        rcases List.mem_append.mp hx with hx | hx
        · exact helimsub x hx
        · obtain rfl := List.mem_singleton.mp hx
          exact hecids
      obtain ⟨rest, hrec, hrestlen⟩ := ih (elim ++ [e])
        (prev ++ [computeRound env bs m elim prev k]) (k + 1) hnd' hsub'
        (by omega) (by omega)
      refine ⟨computeRound env bs m elim prev k :: rest, ?_, by simpa using hrestlen⟩
      have hcond' : ¬ ((computeRound env bs m elim prev k).winner.isSome ∨
          (computeRound env bs m elim prev k).voteCounts.length ≤ 1) := by
        push_neg
        constructor
        · simp [hwnone]
        · rw [computeRound_voteCounts]; omega
      simp only [runRounds, if_neg hcond']
      rw [helim]
      dsimp only
      rw [hrec]
      rfl

/-- Claim C6: under the preconditions (at least two candidates, every ranked
identifier among the candidates, no duplicates within a ballot), `tabulate`
terminates successfully in at most `|candidates|` rounds, and in particular
never returns the `InfiniteLoopDetected` safety-cap error. -/
theorem C6_terminates (env : HashEnv) (c : List Candidate) (b : List Ballot)
    (m : TieBreakMethod) (henv : env.Ok) (hc2 : 2 ≤ c.length)
    (hmem : ∀ bl ∈ b, ∀ x ∈ bl.rankings, x ∈ c.map (·.id))
    (hnd : ∀ bl ∈ b, bl.rankings.Nodup) :
    (∃ res, tabulate env c b m = .ok res ∧ res.rounds.length ≤ c.length) ∧
    tabulate env c b m ≠ .error .infiniteLoopDetected := by
  have hval := validateBallots_ok c b hmem hnd
  have hfuel : ((c.map (·.id)).dedup.filter
      (fun x => ¬ ([] : List Uuid).contains x)).length ≤ c.length := by
    have h1 : ((c.map (·.id)).dedup.filter
        (fun x => ¬ ([] : List Uuid).contains x)).length ≤ (c.map (·.id)).dedup.length :=
      List.length_filter_le _ _
    have h2 : (c.map (·.id)).dedup.length ≤ (c.map (·.id)).length :=
      (List.dedup_sublist _).length_le
    have h3 : (c.map (·.id)).length = c.length := List.length_map _ _
    omega
  obtain ⟨rs, hrr, hrslen⟩ := runRounds_terminates env b m (c.map (·.id)) henv hmem
    c.length [] [] 1 (by simp) (by simp) hfuel (by omega)
  have htab : tabulate env c b m = .ok
      { rounds := rs
        winner := (rs.getLast?.bind (·.winner) <|>
          rs.getLast?.bind (fun r => (r.voteCounts.head?).map (·.1)))
        totalBallots := b.length
        exhaustedBallots := ((rs.getLast?).map (·.exhaustedBallots)).getD 0 } := by
    unfold tabulate
    rw [hval]
    simp only [Bind.bind, Except.bind]
    rw [if_neg (by omega)]
    rw [hrr]
    rfl
  refine ⟨⟨_, htab, by simpa using hrslen⟩, ?_⟩
  rw [htab]
  simp

/-- Witness for C6: the elimination-and-transfer scenario satisfies all
preconditions and tabulates in two rounds (at most three). -/
theorem C6_witness :
    (∃ res, tabulate envId cands3 ballotsElim (.random 42) = .ok res ∧
      res.rounds.length ≤ cands3.length) ∧
    tabulate envId cands3 ballotsElim (.random 42) ≠ .error .infiniteLoopDetected :=
  C6_terminates envId cands3 ballotsElim (.random 42) envId_ok (by decide)
    (by decide) (by decide)

theorem computeRound_eliminated_none_of_break (env : HashEnv) (bs : List Ballot)
    (m : TieBreakMethod) (elim : List Uuid) (prev : List Round) (k : Nat)
    (hcond : (computeRound env bs m elim prev k).winner.isSome ∨
      (computeRound env bs m elim prev k).voteCounts.length ≤ 1) :
    (computeRound env bs m elim prev k).eliminated = none := by
  rw [computeRound_eliminated_def]
  rw [if_neg]
  rintro ⟨hwn, hlen⟩
  rcases hcond with hws | hle
  · rw [hwn] at hws; simp at hws
  · rw [computeRound_voteCounts] at hle; omega

theorem runRounds_round_spec (env : HashEnv) (bs : List Ballot) (m : TieBreakMethod)
    (henv : env.Ok) :
    ∀ (fuel : Nat) (elim : List Uuid) (prev : List Round) (k : Nat) (rs : List Round),
      runRounds env bs m fuel elim prev k = .ok rs →
      ∀ i (hi : i < rs.length),
        (∀ cand, cand ∈ keysOf (rs.get ⟨i, hi⟩).voteCounts ↔
          ∃ bl ∈ bs, topChoice (elim ++ (rs.take i).filterMap (·.eliminated))
            bl.rankings = some cand) ∧
        (∀ e, (rs.get ⟨i, hi⟩).eliminated = some e →
          e ∈ keysOf (rs.get ⟨i, hi⟩).voteCounts) := by
  intro fuel
  induction fuel with
  | zero => intro elim prev k rs h; exact absurd h (by simp [runRounds])
  | succ f ih =>
    intro elim prev k rs h
    simp only [runRounds] at h
    split at h
    · rename_i hcond
      obtain rfl := Except.ok.inj h
      intro i hi
      have hi0 : i = 0 := by simpa using Nat.lt_one_iff.mp (by simpa using hi)
      subst hi0
      constructor
      · intro cand
        simp only [List.take_zero, List.filterMap_nil, List.append_nil, List.get]
        rw [computeRound_voteCounts]
        exact tallyVotes_keys_mem bs elim cand
      · intro e he
        rw [show (([computeRound env bs m elim prev k] : List Round).get ⟨0, hi⟩) =
          computeRound env bs m elim prev k from rfl] at he
        rw [computeRound_eliminated_none_of_break env bs m elim prev k hcond] at he
        exact absurd he (by simp)
    · rename_i hcond
      push_neg at hcond
      obtain ⟨hwnone0, hlen2⟩ := hcond
      have hwnone : (computeRound env bs m elim prev k).winner = none :=
        Option.not_isSome_iff_eq_none.mp (by simpa using hwnone0)
      rw [computeRound_voteCounts] at hlen2
      have hlen2' : 1 < (tallyVotes bs elim).1.length := by omega
      obtain ⟨e, helim1, hekeys⟩ :=
        chooseElimination_spec env bs m (tallyVotes bs elim).1 prev henv hlen2'
      have helim : (computeRound env bs m elim prev k).eliminated = some e := by
        rw [computeRound_eliminated_def, if_pos ⟨hwnone, hlen2'⟩]
        exact helim1
      rw [helim] at h
      dsimp only at h
      cases hrec : runRounds env bs m f (elim ++ [e])
          (prev ++ [computeRound env bs m elim prev k]) (k + 1) with
      | error err => rw [hrec] at h; simp [Except.map] at h
      | ok rest =>
        rw [hrec] at h
        simp only [Except.map] at h
        obtain rfl := Except.ok.inj h
        intro i hi
        cases i with
        | zero =>
          constructor
          · intro cand
            simp only [List.take_zero, List.filterMap_nil, List.append_nil, List.get]
            rw [computeRound_voteCounts]
            exact tallyVotes_keys_mem bs elim cand
          · intro e' he'
            simp only [List.get] at he' ⊢
            rw [helim] at he'
            obtain rfl := Option.some.inj he'
            rw [computeRound_voteCounts]
            exact hekeys
        | succ j =>
          have hj : j < rest.length := by simpa using hi
          have hget : ((computeRound env bs m elim prev k :: rest).get ⟨j + 1, hi⟩) =
              rest.get ⟨j, hj⟩ := rfl
          have htake : ((computeRound env bs m elim prev k :: rest).take (j + 1)).filterMap
              (·.eliminated) = e :: (rest.take j).filterMap (·.eliminated) := by
            simp [List.take_succ_cons, List.filterMap_cons, helim]
          obtain ⟨hkeys, helims⟩ := ih (elim ++ [e]) _ (k + 1) rest hrec j hj
          rw [hget, htake]
          refine ⟨?_, helims⟩
          intro cand
          rw [hkeys cand]
          have hla : elim ++ [e] ++ (rest.take j).filterMap (·.eliminated) =
              elim ++ e :: (rest.take j).filterMap (·.eliminated) := by
            simp
          rw [hla]

/-- Claim C9: in every round of a tabulation, `vote_counts` contains exactly
the active candidates currently holding at least one ballot's top remaining
preference (relative to the eliminations recorded in the earlier rounds), all
recorded tallies are positive (a zero-vote candidate is absent), and a
round's eliminated candidate always comes from the round's positive-tally
candidates. -/
theorem C9_vote_counts_support (env : HashEnv) (c : List Candidate) (b : List Ballot)
    (m : TieBreakMethod) (res : RcvResult) (henv : env.Ok)
    (h : tabulate env c b m = .ok res) :
    ∀ i (hi : i < res.rounds.length),
      (∀ cand, cand ∈ keysOf (res.rounds.get ⟨i, hi⟩).voteCounts ↔
        ∃ bl ∈ b, topChoice ((res.rounds.take i).filterMap (·.eliminated))
          bl.rankings = some cand) ∧
      (∀ kv ∈ (res.rounds.get ⟨i, hi⟩).voteCounts, 0 < kv.2) ∧
      (∀ e, (res.rounds.get ⟨i, hi⟩).eliminated = some e →
        e ∈ keysOf (res.rounds.get ⟨i, hi⟩).voteCounts) := by
  obtain ⟨-, -, rs, hrr, hrows, -⟩ := tabulate_ok_inv env c b m res h
  subst hrows
  intro i hi
  obtain ⟨hkeys, helims⟩ := runRounds_round_spec env b m henv c.length [] [] 1
    res.rounds hrr i hi
  refine ⟨?_, ?_, helims⟩
  · intro cand
    rw [hkeys cand]
    simp
  · intro kv hkv
    exact (runRounds_mem_good env b m c.length [] [] 1 res.rounds hrr _
      (List.get_mem res.rounds i hi)).1 kv hkv

/-- Witness for C9 on the exhaustion scenario: in round one, Charlie (3) is
eliminated and is indeed among the positive-tally candidates of that round. -/
theorem C9_witness : envId.Ok ∧
    ∃ res, tabulate envId cands3 ballotsExh (.random 42) = .ok res ∧
      ∃ (hlen : 0 < res.rounds.length),
        (∀ kv ∈ (res.rounds.get ⟨0, hlen⟩).voteCounts, 0 < kv.2) ∧
        (∀ e, (res.rounds.get ⟨0, hlen⟩).eliminated = some e →
          e ∈ keysOf (res.rounds.get ⟨0, hlen⟩).voteCounts) := by
  refine ⟨envId_ok, ?_⟩
  cases h : tabulate envId cands3 ballotsExh (.random 42) with
  | error e =>
    have hne : errOf (tabulate envId cands3 ballotsExh (.random 42)) = none := by decide
    rw [h] at hne
    simp [errOf] at hne
  | ok res =>
    have hlen : 0 < res.rounds.length := by
      have hl : (tabulate envId cands3 ballotsExh (.random 42)).toOption.map
          (fun r => r.rounds.length) = some 3 := by decide
      rw [h] at hl
      simp only [Except.toOption, Option.map_some', Option.some.injEq] at hl
      omega
    obtain ⟨-, hpos, helims⟩ :=
      C9_vote_counts_support envId cands3 ballotsExh (.random 42) res envId_ok h 0 hlen
    exact ⟨res, rfl, hlen, hpos, helims⟩

/-! ## Lemmas: the engine reads only each ballot's rankings -/

theorem tallyAux_ext (elim : List Uuid) :
    ∀ (bs1 bs2 : List Ballot) (acc : List (Uuid × Nat) × Nat),
      bs1.map (·.rankings) = bs2.map (·.rankings) →
      tallyAux elim acc bs1 = tallyAux elim acc bs2 := by
  intro bs1
  induction bs1 with
  | nil =>
    intro bs2 acc hm
    cases bs2 with
    | nil => rfl
    | cons b t => simp at hm
  | cons b1 t1 ih =>
    intro bs2 acc hm
    cases bs2 with
    | nil => simp at hm
    | cons b2 t2 =>
      simp only [List.map_cons, List.cons.injEq] at hm
      obtain ⟨hr, ht⟩ := hm
      simp only [tallyAux, hr]
      cases topChoice elim b2.rankings with
      | some c => exact ih t2 _ ht
      | none => exact ih t2 _ ht

theorem countFirstChoice_ext (bs1 bs2 : List Ballot)
    (hm : bs1.map (·.rankings) = bs2.map (·.rankings)) :
    countFirstChoice bs1 = countFirstChoice bs2 := by
  funext c
  unfold countFirstChoice
  induction bs1 generalizing bs2 with
  | nil =>
    cases bs2 with
    | nil => rfl
    | cons b t => simp at hm
  | cons b1 t1 ih =>
    cases bs2 with
    | nil => simp at hm
    | cons b2 t2 =>
      simp only [List.map_cons, List.cons.injEq] at hm
      obtain ⟨hr, ht⟩ := hm
      simp only [List.filter_cons, hr]
      split <;> simp [ih t2 ht]

theorem redistribution_ext (bs1 bs2 : List Ballot)
    (hm : bs1.map (·.rankings) = bs2.map (·.rankings)) :
    redistribution bs1 = redistribution bs2 := by
  funext tied c
  unfold redistribution
  have haux : ∀ (t1 t2 : List Ballot) (acc : Nat),
      t1.map (·.rankings) = t2.map (·.rankings) →
      t1.foldl (fun acc b =>
        match earliestTiedCredit tied b.rankings with
        | some dk => if dk.1 = c then acc + dk.2 else acc
        | none => acc) acc =
      t2.foldl (fun acc b =>
        match earliestTiedCredit tied b.rankings with
        | some dk => if dk.1 = c then acc + dk.2 else acc
        | none => acc) acc := by
    intro t1
    induction t1 with
    | nil =>
      intro t2 acc hm2
      cases t2 with
      | nil => rfl
      | cons b t => simp at hm2
    | cons b1 tl1 ih =>
      intro t2 acc hm2
      cases t2 with
      | nil => simp at hm2
      | cons b2 tl2 =>
        simp only [List.map_cons, List.cons.injEq] at hm2
        obtain ⟨hr, ht⟩ := hm2
        simp only [List.foldl_cons, hr]
        exact ih tl2 _ ht
  exact haux bs1 bs2 0 hm

theorem breakTieComprehensive_ext (env : HashEnv) (m : TieBreakMethod)
    (bs1 bs2 : List Ballot) (hm : bs1.map (·.rankings) = bs2.map (·.rankings))
    (tied : List Uuid) (prev : List Round) :
    breakTieComprehensive env bs1 m tied prev = breakTieComprehensive env bs2 m tied prev := by
  unfold breakTieComprehensive tryFirstChoiceTiebreak tryMostVotesToDistribute
  rw [countFirstChoice_ext bs1 bs2 hm, redistribution_ext bs1 bs2 hm]

theorem computeRound_ext (env : HashEnv) (m : TieBreakMethod)
    (bs1 bs2 : List Ballot) (hm : bs1.map (·.rankings) = bs2.map (·.rankings))
    (elim : List Uuid) (prev : List Round) (k : Nat) :
    computeRound env bs1 m elim prev k = computeRound env bs2 m elim prev k := by
  have htv : tallyVotes bs1 elim = tallyVotes bs2 elim := tallyAux_ext elim bs1 bs2 ([], 0) hm
  unfold computeRound chooseElimination
  rw [htv]
  simp only [breakTieComprehensive_ext env m bs1 bs2 hm]

theorem runRounds_ext (env : HashEnv) (m : TieBreakMethod)
    (bs1 bs2 : List Ballot) (hm : bs1.map (·.rankings) = bs2.map (·.rankings)) :
    ∀ (fuel : Nat) (elim : List Uuid) (prev : List Round) (k : Nat),
      runRounds env bs1 m fuel elim prev k = runRounds env bs2 m fuel elim prev k := by
  intro fuel
  induction fuel with
  | zero => intro elim prev k; rfl
  | succ f ih =>
    intro elim prev k
    simp only [runRounds]
    rw [computeRound_ext env m bs1 bs2 hm elim prev k]
    rw [ih]

theorem checkBallotRankings_ok_ext (ids : List Uuid) (bid1 bid2 : Uuid) :
    ∀ (rks seen : List Uuid),
      checkBallotRankings ids bid1 seen rks = .ok () →
      checkBallotRankings ids bid2 seen rks = .ok () := by
  intro rks
  induction rks with
  | nil => intro seen _; rfl
  | cons c rest ih =>
    intro seen h
    unfold checkBallotRankings at h ⊢
    by_cases h1 : c ∈ ids
    · rw [if_neg (by simp [h1])] at h ⊢
      by_cases h2 : seen.contains c = true
      · rw [if_pos h2] at h; exact absurd h (by simp)
      · rw [if_neg h2] at h ⊢
        exact ih _ h
    · rw [if_pos (by simp [h1])] at h
      exact absurd h (by simp)

theorem validateBallots_ok_ext (c : List Candidate) :
    ∀ (bs1 bs2 : List Ballot), bs1.map (·.rankings) = bs2.map (·.rankings) →
      validateBallots c bs1 = .ok () → validateBallots c bs2 = .ok () := by
  intro bs1
  induction bs1 with
  | nil =>
    intro bs2 hm h
    cases bs2 with
    | nil => rfl
    | cons b t => simp at hm
  | cons b1 t1 ih =>
    intro bs2 hm h
    cases bs2 with
    | nil => simp at hm
    | cons b2 t2 =>
      simp only [List.map_cons, List.cons.injEq] at hm
      obtain ⟨hr, ht⟩ := hm
      unfold validateBallots at h ⊢
      simp only [Bind.bind, Except.bind] at h ⊢
      cases hchk : checkBallotRankings (c.map (·.id)) b1.id [] b1.rankings with
      | error e => rw [hchk] at h; exact absurd h (by simp)
      | ok u =>
        obtain rfl : u = () := rfl
        rw [hchk] at h
        have hchk2 : checkBallotRankings (c.map (·.id)) b2.id [] b2.rankings = .ok () := by
          rw [← hr]
          exact checkBallotRankings_ok_ext (c.map (·.id)) b1.id b2.id b1.rankings [] hchk
        rw [hchk2]
        exact ih t2 ht h

theorem validateBallots_full_ext (c : List Candidate) :
    ∀ (bs1 bs2 : List Ballot),
      bs1.map (fun b => (b.id, b.rankings)) = bs2.map (fun b => (b.id, b.rankings)) →
      validateBallots c bs1 = validateBallots c bs2 := by
  intro bs1
  induction bs1 with
  | nil =>
    intro bs2 hm
    cases bs2 with
    | nil => rfl
    | cons b t => simp at hm
  | cons b1 t1 ih =>
    intro bs2 hm
    cases bs2 with
    | nil => simp at hm
    | cons b2 t2 =>
      simp only [List.map_cons, List.cons.injEq, Prod.mk.injEq] at hm
      obtain ⟨⟨hid, hr⟩, ht⟩ := hm
      unfold validateBallots
      rw [hid, hr, ih t2 ht]

/-- Claim C10 (amended): the engine never reads voter ids — two ballot lists
that agree on (ballot id, rankings) pairwise give byte-identical results,
errors included; and two ballot lists that agree only on rankings give
identical results whenever validation succeeds (which itself depends only on
the rankings).  Only the ballot id reported inside a validation-error message
can differ. -/
theorem C10_provenance_independence (env : HashEnv) (c : List Candidate)
    (m : TieBreakMethod) (bs1 bs2 : List Ballot) :
    (bs1.map (fun b => (b.id, b.rankings)) = bs2.map (fun b => (b.id, b.rankings)) →
      tabulate env c bs1 m = tabulate env c bs2 m) ∧
    (bs1.map (·.rankings) = bs2.map (·.rankings) → validateBallots c bs1 = .ok () →
      tabulate env c bs1 m = tabulate env c bs2 m) := by
  have hlen : bs1.map (·.rankings) = bs2.map (·.rankings) → bs1.length = bs2.length := by
    intro hm
    have := congrArg List.length hm
    simpa using this
  have hcore : bs1.map (·.rankings) = bs2.map (·.rankings) →
      validateBallots c bs1 = .ok () → tabulate env c bs1 m = tabulate env c bs2 m := by
    intro hm hval1
    have hval2 := validateBallots_ok_ext c bs1 bs2 hm hval1
    unfold tabulate
    rw [hval1, hval2]
    simp only [Bind.bind, Except.bind]
    split
    · rfl
    · rw [runRounds_ext env m bs1 bs2 hm, hlen hm]
  refine ⟨?_, hcore⟩
  intro hidr
  have hm : bs1.map (·.rankings) = bs2.map (·.rankings) := by
    have h1 := congrArg (List.map Prod.snd) hidr
    simpa [Function.comp] using h1
  cases hval1 : validateBallots c bs1 with
  | ok u =>
    obtain rfl : u = () := rfl
    exact hcore hm hval1
  | error e =>
    have hval2 : validateBallots c bs2 = .error e :=
      (validateBallots_full_ext c bs1 bs2 hidr) ▸ hval1
    unfold tabulate
    rw [hval1, hval2]
    simp [Bind.bind, Except.bind]

/-- Counterexample for C10 as stated: two single-ballot lists with identical
rankings but different ballot ids; both submit the same duplicated ranking
`[1, 1]`, and `tabulate` fails with error values naming the respective ballot
ids, so the results differ. -/
theorem C10_counterexample :
    ([mkB 0 7 [1, 1]].map (·.rankings) = [mkB 1 8 [1, 1]].map (·.rankings)) ∧
    tabulate envId cands2 [mkB 0 7 [1, 1]] (.random 42) ≠
      tabulate envId cands2 [mkB 1 8 [1, 1]] (.random 42) := by
  refine ⟨by decide, ?_⟩
  intro h
  have h0 : errOf (tabulate envId cands2 [mkB 0 7 [1, 1]] (.random 42)) =
      some (.duplicateRanking 0) := by decide
  have h1 : errOf (tabulate envId cands2 [mkB 1 8 [1, 1]] (.random 42)) =
      some (.duplicateRanking 1) := by decide
  rw [h] at h0
  exact absurd (h0.symm.trans h1) (by decide)

/-- Witness for C10 (amended), both parts at concrete inputs: the majority
scenario rerun with all voter ids changed (and, for the second part, ballot
ids changed too) gives the identical result. -/
theorem C10_witness :
    (tabulate envId cands3 ballotsMaj (.random 42) =
      tabulate envId cands3 (ballotsMaj.map (fun b => { b with voterId := 0 }))
        (.random 42)) ∧
    (tabulate envId cands3 ballotsMaj (.random 42) =
      tabulate envId cands3 (ballotsMaj.map (fun b => { b with id := 0, voterId := 0 }))
        (.random 42)) := by
  constructor
  · exact (C10_provenance_independence envId cands3 (.random 42) ballotsMaj
      (ballotsMaj.map (fun b => { b with voterId := 0 }))).1 (by decide)
  · exact (C10_provenance_independence envId cands3 (.random 42) ballotsMaj
      (ballotsMaj.map (fun b => { b with id := 0, voterId := 0 }))).2 (by decide) rfl

/-- Counterexample for C3 as stated: `cands2` with one ballot for each
candidate ties them; the tie falls through to the `Random` rung, whose pick
indexes the tied list in `HashMap` iteration order.  Under two legitimate
iteration orders (`envId`, `envRev`) — with the identical PRNG stream — the
final winner differs, so two invocations of `tabulate` on equal inputs need
not return identical output. -/
theorem C3_counterexample : envId.Ok ∧ envRev.Ok ∧ envId.randIdx = envRev.randIdx ∧
    (tabulate envId cands2 ballotsTie2 (.random 42)).toOption.map (·.winner) =
      some (some 1) ∧
    (tabulate envRev cands2 ballotsTie2 (.random 42)).toOption.map (·.winner) =
      some (some 0) ∧
    (tabulate envId cands2 ballotsTie2 (.random 42)).toOption.map (·.winner) ≠
      (tabulate envRev cands2 ballotsTie2 (.random 42)).toOption.map (·.winner) :=
  ⟨envId_ok, envRev_ok, rfl, by decide, by decide, by decide⟩

/-! ## Order-invariance of the decisive tie-break rungs -/

instance : IsTotal (Uuid × Nat) (fun a b => a.2 ≤ b.2) :=
  ⟨fun a b => Nat.le_total a.2 b.2⟩

instance : IsTrans (Uuid × Nat) (fun a b => a.2 ≤ b.2) :=
  ⟨fun _ _ _ h h' => le_trans h h'⟩

theorem mem_presentVotes_iff (tied : List Uuid) (r : Round) (id : Uuid) (v : Nat) :
    (id, v) ∈ presentVotes tied r ↔ id ∈ tied ∧ roundLookup r id = some v := by
  constructor
  · intro h
    exact presentVotes_mem tied r (id, v) h
  · rintro ⟨hid, hl⟩
    exact List.mem_filterMap.mpr ⟨id, hid, by rw [hl]; rfl⟩

theorem presentVotes_keys_nodup (tied : List Uuid) (r : Round) (hnd : tied.Nodup) :
    ((presentVotes tied r).map (·.1)).Nodup := by
  induction tied with
  | nil => simp [presentVotes]
  | cons a t ih =>
    obtain ⟨hna, hndt⟩ := List.nodup_cons.mp hnd
    unfold presentVotes at *
    simp only [List.filterMap_cons]
    cases hl : roundLookup r a with
    | none => exact ih hndt
    | some v =>
      simp only [Option.map_some', List.map_cons, List.nodup_cons]
      refine ⟨?_, ih hndt⟩
      intro hmem
      obtain ⟨kv, hkv, hfst⟩ := List.mem_map.mp hmem
      have := presentVotes_mem t r kv hkv
      exact hna (hfst ▸ this.1)

theorem priorRoundStep_eq_some_iff (tied : List Uuid) (r : Round) (c : Uuid)
    (hnd : tied.Nodup) :
    priorRoundStep tied r = some c ↔ SpecDecides tied r c := by
  have hperm := List.perm_insertionSort (fun a b : Uuid × Nat => a.2 ≤ b.2)
    (presentVotes tied r)
  have hsort := List.sorted_insertionSort (fun a b : Uuid × Nat => a.2 ≤ b.2)
    (presentVotes tied r)
  have hknd : (((presentVotes tied r).insertionSort
      (fun a b => a.2 ≤ b.2)).map (·.1)).Nodup := by
    rw [List.Perm.nodup_iff (hperm.map (·.1))]
    exact presentVotes_keys_nodup tied r hnd
  have hmem : ∀ kv : Uuid × Nat,
      kv ∈ (presentVotes tied r).insertionSort (fun a b => a.2 ≤ b.2) ↔
        kv.1 ∈ tied ∧ roundLookup r kv.1 = some kv.2 := by
    intro kv
    rw [hperm.mem_iff]
    constructor
    · exact presentVotes_mem tied r kv
    · rintro ⟨h1, h2⟩
      exact (mem_presentVotes_iff tied r kv.1 kv.2).mpr ⟨h1, h2⟩
  unfold priorRoundStep
  cases hs : (presentVotes tied r).insertionSort (fun a b => a.2 ≤ b.2) with
  | nil =>
    dsimp only
    constructor
    · intro h; exact absurd h (by simp)
    · rintro ⟨v, hv, hc, -, -⟩
      have hin : (c, v) ∈ (presentVotes tied r).insertionSort (fun a b => a.2 ≤ b.2) :=
        (hmem (c, v)).mpr ⟨hc, hv⟩
      rw [hs] at hin
      simp at hin
  | cons a tl =>
    cases tl with
    | nil =>
      dsimp only
      constructor
      · intro h; exact absurd h (by simp)
      · rintro ⟨v, hv, hc, ⟨d, hd, hdc, hds⟩, -⟩
        obtain ⟨w', hw'⟩ := Option.isSome_iff_exists.mp hds
        have h1 : (c, v) ∈ (presentVotes tied r).insertionSort (fun a b => a.2 ≤ b.2) :=
          (hmem (c, v)).mpr ⟨hc, hv⟩
        have h2 : (d, w') ∈ (presentVotes tied r).insertionSort (fun a b => a.2 ≤ b.2) :=
          (hmem (d, w')).mpr ⟨hd, hw'⟩
        rw [hs] at h1 h2
        simp only [List.mem_singleton] at h1 h2
        exact (hdc (congrArg Prod.fst (h2.trans h1.symm))).elim
    | cons b tl2 =>
      rw [hs] at hsort hknd
      have hcons := List.sorted_cons.mp hsort
      have hab : a.2 ≤ b.2 := hcons.1 b (List.mem_cons_self _ _)
      have ha_all : ∀ x ∈ b :: tl2, a.2 ≤ x.2 := hcons.1
      have hb_all : ∀ x ∈ tl2, b.2 ≤ x.2 := (List.sorted_cons.mp hcons.2).1
      simp only [List.map_cons, List.nodup_cons, List.mem_cons, List.mem_map] at hknd
      have habne : a.1 ≠ b.1 := fun hc => hknd.1 (Or.inl hc)
      have hanotl : ∀ kv ∈ b :: tl2, a.1 ≠ kv.1 := by
        intro kv hkv
        rcases List.mem_cons.mp hkv with rfl | hkv'
        · exact habne
        · intro hc
          exact hknd.1 (Or.inr ⟨kv, hkv', hc.symm⟩)
      have haself := (hmem a).mp (by rw [hs]; exact List.mem_cons_self _ _)
      have hbself := (hmem b).mp
        (by rw [hs]; exact List.mem_cons_of_mem _ (List.mem_cons_self _ _))
      dsimp only
      by_cases hlt : a.2 < b.2
      · rw [if_pos hlt]
        constructor
        · intro h
          obtain rfl := Option.some.inj h
          refine ⟨a.2, haself.2, haself.1, ⟨b.1, hbself.1, fun hc => habne hc.symm,
            by rw [hbself.2]; rfl⟩, ?_⟩
          intro d hd hdne w' hw'
          have hdw : (d, w') ∈ (presentVotes tied r).insertionSort (fun x y => x.2 ≤ y.2) :=
            (hmem (d, w')).mpr ⟨hd, hw'⟩
          rw [hs] at hdw
          rcases List.mem_cons.mp hdw with heq | hdw'
          · exact (hdne (congrArg Prod.fst heq)).elim
          · rcases List.mem_cons.mp hdw' with heq | hdw''
            · have : w' = b.2 := congrArg Prod.snd heq
              omega
            · have h1 := hb_all _ hdw''
              simp only at h1
              omega
        · rintro ⟨v, hv, hc, -, hmin⟩
          by_cases hne : a.1 = c
          · rw [hne]
          · exfalso
            have hlta := hmin a.1 haself.1 hne a.2 haself.2
            have hcv : (c, v) ∈ (presentVotes tied r).insertionSort (fun x y => x.2 ≤ y.2) :=
              (hmem (c, v)).mpr ⟨hc, hv⟩
            rw [hs] at hcv
            rcases List.mem_cons.mp hcv with heq | hcv'
            · exact hne (congrArg Prod.fst heq).symm
            · have h1 := ha_all _ hcv'
              simp only at h1
              omega
      · rw [if_neg hlt]
        have hab2 : a.2 = b.2 := le_antisymm hab (not_lt.mp hlt)
        constructor
        · intro h; exact absurd h (by simp)
        · rintro ⟨v, hv, hc, -, hmin⟩
          exfalso
          have hcv : (c, v) ∈ (presentVotes tied r).insertionSort (fun x y => x.2 ≤ y.2) :=
            (hmem (c, v)).mpr ⟨hc, hv⟩
          rw [hs] at hcv
          rcases List.mem_cons.mp hcv with heq | hcv'
          · have hca : c = a.1 := congrArg Prod.fst heq
            have hva : v = a.2 := congrArg Prod.snd heq
            have hbc : b.1 ≠ c := by
              intro hcontra
              exact habne (hca ▸ hcontra).symm
            have := hmin b.1 hbself.1 hbc b.2 hbself.2
            omega
          · have hge := ha_all _ hcv'
            simp only at hge
            have hac : a.1 ≠ c := by
              intro hcontra
              exact hanotl (c, v) hcv' hcontra
            have := hmin a.1 haself.1 hac a.2 haself.2
            omega

theorem priorRoundStep_eq_none_iff (tied : List Uuid) (r : Round) (hnd : tied.Nodup) :
    priorRoundStep tied r = none ↔ ∀ d, ¬ SpecDecides tied r d := by
  constructor
  · intro h d hspec
    rw [← priorRoundStep_eq_some_iff tied r d hnd] at hspec
    rw [h] at hspec
    exact absurd hspec (by simp)
  · intro h
    cases hstep : priorRoundStep tied r with
    | none => rfl
    | some d => exact absurd ((priorRoundStep_eq_some_iff tied r d hnd).mp hstep) (h d)

theorem priorRoundWalk_eq_some_iff (tied : List Uuid) (hnd : tied.Nodup) :
    ∀ (l : List Round) (c : Uuid),
      priorRoundWalk tied l = some c ↔
        ∃ pre r post, l = pre ++ r :: post ∧
          (∀ p ∈ pre, ∀ d, ¬ SpecDecides tied p d) ∧ SpecDecides tied r c := by
  intro l
  induction l with
  | nil =>
    intro c
    constructor
    · intro h; exact absurd h (by simp [priorRoundWalk])
    · rintro ⟨pre, r, post, heq, -, -⟩
      exact absurd heq (by simp)
  | cons r0 rest ih =>
    intro c
    unfold priorRoundWalk
    cases hstep : priorRoundStep tied r0 with
    | some d =>
      dsimp only
      constructor
      · intro h
        obtain rfl := Option.some.inj h
        exact ⟨[], r0, rest, by simp, by simp,
          (priorRoundStep_eq_some_iff tied r0 d hnd).mp hstep⟩
      · rintro ⟨pre, r, post, heq, hpre, hspec⟩
        cases pre with
        | nil =>
          simp only [List.nil_append, List.cons.injEq] at heq
          obtain ⟨rfl, rfl⟩ := heq
          have hc := (priorRoundStep_eq_some_iff tied r0 c hnd).mpr hspec
          rw [hstep] at hc
          exact hc
        | cons p pre' =>
          simp only [List.cons_append, List.cons.injEq] at heq
          obtain ⟨rfl, -⟩ := heq
          exact absurd ((priorRoundStep_eq_some_iff tied r0 d hnd).mp hstep)
            (hpre r0 (List.mem_cons_self _ _) d)
    | none =>
      dsimp only
      rw [ih c]
      constructor
      · rintro ⟨pre, r, post, rfl, hpre, hspec⟩
        refine ⟨r0 :: pre, r, post, rfl, ?_, hspec⟩
        intro p hp d
        rcases List.mem_cons.mp hp with rfl | hp'
        · exact (priorRoundStep_eq_none_iff tied p hnd).mp hstep d
        · exact hpre p hp' d
      · rintro ⟨pre, r, post, heq, hpre, hspec⟩
        cases pre with
        | nil =>
          simp only [List.nil_append, List.cons.injEq] at heq
          obtain ⟨rfl, rfl⟩ := heq
          have hc := (priorRoundStep_eq_some_iff tied r0 c hnd).mpr hspec
          rw [hstep] at hc
          exact absurd hc (by simp)
        | cons p pre' =>
          simp only [List.cons_append, List.cons.injEq] at heq
          obtain ⟨rfl, hrest⟩ := heq
          exact ⟨pre', r, post, hrest, fun q hq d => hpre q (List.mem_cons_of_mem _ hq) d,
            hspec⟩

/-- Claim C4 (amended): when the `PriorRoundPerformance` rule runs for a tied
set with distinct members, it walks the recorded rounds most-recent-first and
decides exactly at the first round in which at least two tied members have
recorded tallies and the minimum of those tallies is attained by a unique
member, eliminating that member; rounds in which the tallies differ but the
minimum is shared (and rounds with fewer than two members present) are
skipped, with a member that has no tally in a round ignored for that round. -/
theorem C4_prior_round_rule (tied : List Uuid) (rounds : List Round) (c : Uuid)
    (hnd : tied.Nodup) :
    tryPriorRoundTiebreak tied rounds = some c ↔
      ∃ pre r post, rounds.reverse = pre ++ r :: post ∧
        (∀ p ∈ pre, ∀ d, ¬ SpecDecides tied p d) ∧ SpecDecides tied r c :=
  priorRoundWalk_eq_some_iff tied hnd rounds.reverse c

/-- Counterexample for C4 as stated: with tied set `[1, 2, 3]` and recorded
rounds `r1x` (older) and `r2x` (most recent), the most recent round's tallies
(1, 1, 2) DO differ, yet the walk skips it (the minimum is shared by members
1 and 2) and decides on the older round, returning member 3 — whose tally 2
in the most recent differing round is not the lowest there (member 1 has 1). -/
theorem C4_counterexample :
    tryPriorRoundTiebreak [1, 2, 3] [r1x, r2x] = some 3 ∧
    ([r1x, r2x] : List Round).reverse.head? = some r2x ∧
    TalliesDiffer [1, 2, 3] r2x ∧
    ¬ IsLowestIn [1, 2, 3] r2x 3 := by
  refine ⟨by decide, rfl, ?_, ?_⟩
  · exact ⟨1, by decide, 3, by decide, 1, 2, by decide, by decide, by decide⟩
  · rintro ⟨v, hv, hall⟩
    have hv2 : roundLookup r2x 3 = some 2 := by decide
    have hveq : v = 2 := by
      have := hv.symm.trans hv2
      exact Option.some.inj this
    have h1 := hall 1 (by decide) 1 (by decide)
    omega

/-- Witness for C4 (amended) at the concrete rounds: the walk's result 3 is
the unique minimum of the first qualifying round of the reverse walk. -/
theorem C4_witness : ∃ pre r post, ([r1x, r2x] : List Round).reverse = pre ++ r :: post ∧
    (∀ p ∈ pre, ∀ d, ¬ SpecDecides [1, 2, 3] p d) ∧ SpecDecides [1, 2, 3] r 3 :=
  (C4_prior_round_rule [1, 2, 3] [r1x, r2x] 3 (by decide)).mp (by decide)

theorem eq_singleton_of (l : List Uuid) (w : Uuid) (hnd : l.Nodup) (hw : w ∈ l)
    (hall : ∀ x ∈ l, x = w) : l = [w] := by
  cases l with
  | nil => simp at hw
  | cons a t =>
    have ha : a = w := hall a (List.mem_cons_self _ _)
    subst ha
    have ht : t = [] := by
      cases t with
      | nil => rfl
      | cons b t2 =>
        have hb : b = a := hall b (List.mem_cons_of_mem _ (List.mem_cons_self _ _))
        obtain ⟨hna, -⟩ := List.nodup_cons.mp hnd
        exact absurd (hb ▸ List.mem_cons_self b t2) hna
    rw [ht]

theorem tryFirstChoiceTiebreak_eq_some_iff (bs : List Ballot) (tied : List Uuid)
    (w : Uuid) (hnd : tied.Nodup) :
    tryFirstChoiceTiebreak bs tied = some w ↔
      w ∈ tied ∧ ∀ d ∈ tied, d ≠ w → countFirstChoice bs w < countFirstChoice bs d := by
  unfold tryFirstChoiceTiebreak
  cases hmin : (tied.map (countFirstChoice bs)).min? with
  | none =>
    rw [List.min?_eq_none_iff, List.map_eq_nil_iff] at hmin
    subst hmin
    dsimp only
    constructor
    · intro h; exact absurd h (by simp)
    · rintro ⟨hc, -⟩; simp at hc
  | some minFc =>
    obtain ⟨hmem, hle⟩ := List.min?_eq_some_iff'.mp hmin
    dsimp only
    have hfiliff : (tied.filter (fun id => countFirstChoice bs id = minFc)) = [w] ↔
        (w ∈ tied ∧ ∀ d ∈ tied, d ≠ w →
          countFirstChoice bs w < countFirstChoice bs d) := by
      constructor
      · intro hfil
        have hwmem : w ∈ tied.filter (fun id => countFirstChoice bs id = minFc) := by
          rw [hfil]; exact List.mem_cons_self _ _
        have hw := List.mem_filter.mp hwmem
        have hwc : countFirstChoice bs w = minFc := by simpa using hw.2
        refine ⟨hw.1, ?_⟩
        intro d hd hdw
        have hdle : minFc ≤ countFirstChoice bs d := hle _ (List.mem_map.mpr ⟨d, hd, rfl⟩)
        rcases Nat.lt_or_ge minFc (countFirstChoice bs d) with hlt | hge
        · omega
        · have hdd : countFirstChoice bs d = minFc := by omega
          have hdf : d ∈ tied.filter (fun id => countFirstChoice bs id = minFc) :=
            List.mem_filter.mpr ⟨hd, by simpa using hdd⟩
          rw [hfil] at hdf
          exact absurd (List.mem_singleton.mp hdf) hdw
      · rintro ⟨hw, hmin'⟩
        obtain ⟨d0, hd0, hd0c⟩ := List.mem_map.mp hmem
        have hwle : minFc ≤ countFirstChoice bs w := hle _ (List.mem_map.mpr ⟨w, hw, rfl⟩)
        have hwc : countFirstChoice bs w = minFc := by
          by_cases hdw : d0 = w
          · subst hdw; omega
          · have := hmin' d0 hd0 hdw
            omega
        apply eq_singleton_of _ w (hnd.filter _)
          (List.mem_filter.mpr ⟨hw, by simpa using hwc⟩)
        intro x hx
        have hxf := List.mem_filter.mp hx
        have hxc : countFirstChoice bs x = minFc := by simpa using hxf.2
        by_contra hxw
        have := hmin' x hxf.1 hxw
        omega
    cases hfil : tied.filter (fun id => countFirstChoice bs id = minFc) with
    | nil =>
      dsimp only
      constructor
      · intro h; exact absurd h (by simp)
      · intro hr
        have hr2 := hfiliff.mpr hr
        rw [hfil] at hr2
        exact absurd hr2 (by simp)
    | cons x tl =>
      cases tl with
      | nil =>
        dsimp only
        constructor
        · intro h
          obtain rfl := Option.some.inj h
          exact hfiliff.mp hfil
        · intro hr
          have hr2 := hfiliff.mpr hr
          rw [hfil] at hr2
          obtain rfl := (List.cons.inj hr2).1
          rfl
      | cons y tl2 =>
        dsimp only
        constructor
        · intro h; exact absurd h (by simp)
        · intro hr
          have hr2 := hfiliff.mpr hr
          rw [hfil] at hr2
          exact absurd hr2 (by simp)

theorem tryMostVotesToDistribute_eq_some_iff (bs : List Ballot) (tied : List Uuid)
    (w : Uuid) (hnd : tied.Nodup) :
    tryMostVotesToDistribute bs tied = some w ↔
      w ∈ tied ∧ ∀ d ∈ tied, d ≠ w →
        redistribution bs tied d < redistribution bs tied w := by
  unfold tryMostVotesToDistribute
  cases hmax : (tied.map (redistribution bs tied)).max? with
  | none =>
    rw [List.max?_eq_none_iff, List.map_eq_nil_iff] at hmax
    subst hmax
    dsimp only
    constructor
    · intro h; exact absurd h (by simp)
    · rintro ⟨hc, -⟩; simp at hc
  | some maxR =>
    obtain ⟨hmem, hge⟩ := List.max?_eq_some_iff'.mp hmax
    dsimp only
    have hfiliff : (tied.filter (fun id => redistribution bs tied id = maxR)) = [w] ↔
        (w ∈ tied ∧ ∀ d ∈ tied, d ≠ w →
          redistribution bs tied d < redistribution bs tied w) := by
      constructor
      · intro hfil
        have hwmem : w ∈ tied.filter (fun id => redistribution bs tied id = maxR) := by
          rw [hfil]; exact List.mem_cons_self _ _
        have hw := List.mem_filter.mp hwmem
        have hwc : redistribution bs tied w = maxR := by simpa using hw.2
        refine ⟨hw.1, ?_⟩
        intro d hd hdw
        have hdle : redistribution bs tied d ≤ maxR := hge _ (List.mem_map.mpr ⟨d, hd, rfl⟩)
        rcases Nat.lt_or_ge (redistribution bs tied d) maxR with hlt | hge2
        · omega
        · have hdd : redistribution bs tied d = maxR := by omega
          have hdf : d ∈ tied.filter (fun id => redistribution bs tied id = maxR) :=
            List.mem_filter.mpr ⟨hd, by simpa using hdd⟩
          rw [hfil] at hdf
          exact absurd (List.mem_singleton.mp hdf) hdw
      · rintro ⟨hw, hmax'⟩
        obtain ⟨d0, hd0, hd0c⟩ := List.mem_map.mp hmem
        have hwle : redistribution bs tied w ≤ maxR := hge _ (List.mem_map.mpr ⟨w, hw, rfl⟩)
        have hwc : redistribution bs tied w = maxR := by
          by_cases hdw : d0 = w
          · subst hdw; omega
          · have := hmax' d0 hd0 hdw
            omega
        apply eq_singleton_of _ w (hnd.filter _)
          (List.mem_filter.mpr ⟨hw, by simpa using hwc⟩)
        intro x hx
        have hxf := List.mem_filter.mp hx
        have hxc : redistribution bs tied x = maxR := by simpa using hxf.2
        by_contra hxw
        have := hmax' x hxf.1 hxw
        omega
    cases hfil : tied.filter (fun id => redistribution bs tied id = maxR) with
    | nil =>
      dsimp only
      constructor
      · intro h; exact absurd h (by simp)
      · intro hr
        have hr2 := hfiliff.mpr hr
        rw [hfil] at hr2
        exact absurd hr2 (by simp)
    | cons x tl =>
      cases tl with
      | nil =>
        dsimp only
        constructor
        · intro h
          obtain rfl := Option.some.inj h
          exact hfiliff.mp hfil
        · intro hr
          have hr2 := hfiliff.mpr hr
          rw [hfil] at hr2
          obtain rfl := (List.cons.inj hr2).1
          rfl
      | cons y tl2 =>
        dsimp only
        constructor
        · intro h; exact absurd h (by simp)
        · intro hr
          have hr2 := hfiliff.mpr hr
          rw [hfil] at hr2
          exact absurd hr2 (by simp)

theorem earliestTiedCredit_perm (t1 t2 : List Uuid) (hp : t1.Perm t2) :
    ∀ rks, earliestTiedCredit t1 rks = earliestTiedCredit t2 rks := by
  intro rks
  induction rks with
  | nil => rfl
  | cons c rest ih =>
    unfold earliestTiedCredit
    by_cases hc : c ∈ t1
    · rw [if_pos (by simpa using hc), if_pos (by simpa using hp.mem_iff.mp hc)]
    · rw [if_neg (by simpa using hc),
        if_neg (by simpa using fun h => hc (hp.mem_iff.mpr h))]
      exact ih

theorem redistribution_perm (bs : List Ballot) (t1 t2 : List Uuid) (hp : t1.Perm t2) :
    redistribution bs t1 = redistribution bs t2 := by
  have hec : earliestTiedCredit t1 = earliestTiedCredit t2 :=
    funext (earliestTiedCredit_perm t1 t2 hp)
  funext c
  unfold redistribution
  rw [hec]

theorem specDecides_perm (t1 t2 : List Uuid) (r : Round) (c : Uuid) (hp : t1.Perm t2) :
    SpecDecides t1 r c ↔ SpecDecides t2 r c := by
  unfold SpecDecides
  constructor
  · rintro ⟨v, hv, hc, ⟨d, hd, hdc, hds⟩, hmin⟩
    exact ⟨v, hv, hp.mem_iff.mp hc, ⟨d, hp.mem_iff.mp hd, hdc, hds⟩,
      fun d' hd' => hmin d' (hp.mem_iff.mpr hd')⟩
  · rintro ⟨v, hv, hc, ⟨d, hd, hdc, hds⟩, hmin⟩
    exact ⟨v, hv, hp.mem_iff.mpr hc, ⟨d, hp.mem_iff.mpr hd, hdc, hds⟩,
      fun d' hd' => hmin d' (hp.mem_iff.mp hd')⟩

theorem priorRoundStep_perm (t1 t2 : List Uuid) (r : Round)
    (h1 : t1.Nodup) (hp : t1.Perm t2) :
    priorRoundStep t1 r = priorRoundStep t2 r := by
  have h2 : t2.Nodup := hp.nodup_iff.mp h1
  cases hs : priorRoundStep t1 r with
  | some c =>
    have hspec := (priorRoundStep_eq_some_iff t1 r c h1).mp hs
    exact ((priorRoundStep_eq_some_iff t2 r c h2).mpr
      ((specDecides_perm t1 t2 r c hp).mp hspec)).symm
  | none =>
    cases hs2 : priorRoundStep t2 r with
    | none => rfl
    | some c =>
      have hspec := (priorRoundStep_eq_some_iff t2 r c h2).mp hs2
      have := (priorRoundStep_eq_some_iff t1 r c h1).mpr
        ((specDecides_perm t1 t2 r c hp).mpr hspec)
      rw [hs] at this
      exact absurd this (by simp)

theorem priorRoundWalk_perm (t1 t2 : List Uuid) (h1 : t1.Nodup) (hp : t1.Perm t2) :
    ∀ l, priorRoundWalk t1 l = priorRoundWalk t2 l := by
  intro l
  induction l with
  | nil => rfl
  | cons r rest ih =>
    unfold priorRoundWalk
    rw [priorRoundStep_perm t1 t2 r h1 hp]
    cases priorRoundStep t2 r with
    | some c => rfl
    | none => exact ih

theorem tryPriorRoundTiebreak_perm (t1 t2 : List Uuid) (prev : List Round)
    (h1 : t1.Nodup) (hp : t1.Perm t2) :
    tryPriorRoundTiebreak t1 prev = tryPriorRoundTiebreak t2 prev :=
  priorRoundWalk_perm t1 t2 h1 hp prev.reverse

theorem tryFirstChoiceTiebreak_perm (bs : List Ballot) (t1 t2 : List Uuid)
    (h1 : t1.Nodup) (hp : t1.Perm t2) :
    tryFirstChoiceTiebreak bs t1 = tryFirstChoiceTiebreak bs t2 := by
  have h2 : t2.Nodup := hp.nodup_iff.mp h1
  cases hs : tryFirstChoiceTiebreak bs t1 with
  | some w =>
    obtain ⟨hw, hmin⟩ := (tryFirstChoiceTiebreak_eq_some_iff bs t1 w h1).mp hs
    exact ((tryFirstChoiceTiebreak_eq_some_iff bs t2 w h2).mpr
      ⟨hp.mem_iff.mp hw, fun d hd => hmin d (hp.mem_iff.mpr hd)⟩).symm
  | none =>
    cases hs2 : tryFirstChoiceTiebreak bs t2 with
    | none => rfl
    | some w =>
      obtain ⟨hw, hmin⟩ := (tryFirstChoiceTiebreak_eq_some_iff bs t2 w h2).mp hs2
      have := (tryFirstChoiceTiebreak_eq_some_iff bs t1 w h1).mpr
        ⟨hp.mem_iff.mpr hw, fun d hd => hmin d (hp.mem_iff.mp hd)⟩
      rw [hs] at this
      exact absurd this (by simp)

theorem tryMostVotesToDistribute_perm (bs : List Ballot) (t1 t2 : List Uuid)
    (h1 : t1.Nodup) (hp : t1.Perm t2) :
    tryMostVotesToDistribute bs t1 = tryMostVotesToDistribute bs t2 := by
  have h2 : t2.Nodup := hp.nodup_iff.mp h1
  have hred := redistribution_perm bs t1 t2 hp
  cases hs : tryMostVotesToDistribute bs t1 with
  | some w =>
    obtain ⟨hw, hmax⟩ := (tryMostVotesToDistribute_eq_some_iff bs t1 w h1).mp hs
    refine ((tryMostVotesToDistribute_eq_some_iff bs t2 w h2).mpr
      ⟨hp.mem_iff.mp hw, ?_⟩).symm
    intro d hd hdw
    rw [← hred]
    exact hmax d (hp.mem_iff.mpr hd) hdw
  | none =>
    cases hs2 : tryMostVotesToDistribute bs t2 with
    | none => rfl
    | some w =>
      obtain ⟨hw, hmax⟩ := (tryMostVotesToDistribute_eq_some_iff bs t2 w h2).mp hs2
      have := (tryMostVotesToDistribute_eq_some_iff bs t1 w h1).mpr
        ⟨hp.mem_iff.mpr hw, fun d hd hdw => hred ▸ hmax d (hp.mem_iff.mp hd) hdw⟩
      rw [hs] at this
      exact absurd this (by simp)

theorem priorRoundWalk_nil_tied : ∀ l, priorRoundWalk [] l = none := by
  intro l
  induction l with
  | nil => rfl
  | cons r rest ih =>
    unfold priorRoundWalk
    have hstep : priorRoundStep [] r = none := rfl
    rw [hstep]
    exact ih

theorem breakTieComprehensive_nil (env : HashEnv) (bs : List Ballot)
    (m : TieBreakMethod) (prev : List Round) :
    breakTieComprehensive env bs m [] prev = (0, .random) := by
  unfold breakTieComprehensive
  have h1 : tryFirstChoiceTiebreak bs [] = none := rfl
  have h2 : tryPriorRoundTiebreak [] prev = none := priorRoundWalk_nil_tied prev.reverse
  have h3 : tryMostVotesToDistribute bs [] = none := rfl
  rw [h1, h2, h3]
  rfl

theorem breakTieComprehensive_perm (env1 env2 : HashEnv) (bs : List Ballot)
    (m : TieBreakMethod) (t1 t2 : List Uuid) (prev : List Round)
    (h1 : t1.Nodup) (hp : t1.Perm t2)
    (hnr : (breakTieComprehensive env1 bs m t1 prev).2 ≠ .random) :
    breakTieComprehensive env2 bs m t2 prev = breakTieComprehensive env1 bs m t1 prev := by
  have hfc := tryFirstChoiceTiebreak_perm bs t1 t2 h1 hp
  have hpr := tryPriorRoundTiebreak_perm t1 t2 prev h1 hp
  have hmv := tryMostVotesToDistribute_perm bs t1 t2 h1 hp
  unfold breakTieComprehensive at hnr ⊢
  rw [← hfc, ← hpr, ← hmv]
  cases hc1 : tryFirstChoiceTiebreak bs t1 with
  | some w => rfl
  | none =>
    rw [hc1] at hnr
    cases hc2 : tryPriorRoundTiebreak t1 prev with
    | some w => rfl
    | none =>
      rw [hc2] at hnr
      cases hc3 : tryMostVotesToDistribute bs t1 with
      | some w => rfl
      | none =>
        rw [hc3] at hnr
        dsimp only at hnr
        exact absurd rfl hnr

theorem keysOf_filter_min_nodup (counts : List (Uuid × Nat))
    (hknd : (keysOf counts).Nodup) (p : Uuid × Nat → Bool) :
    ((counts.filter p).map (·.1)).Nodup := by
  have hsub : List.Sublist ((counts.filter p).map (·.1)) (counts.map (·.1)) :=
    (List.filter_sublist counts).map _
  exact hsub.nodup hknd

theorem chooseElimination_env_eq (env1 env2 : HashEnv) (bs : List Ballot)
    (m : TieBreakMethod) (counts : List (Uuid × Nat)) (prev : List Round)
    (h1 : env1.Ok) (h2 : env2.Ok) (hknd : (keysOf counts).Nodup)
    (hnr : (chooseElimination env1 bs m counts prev).2 ≠ some .random) :
    chooseElimination env2 bs m counts prev = chooseElimination env1 bs m counts prev := by
  unfold chooseElimination at hnr ⊢
  dsimp only at hnr ⊢
  have hcannd : ((counts.filter
      (fun kv => kv.2 = ((counts.map (·.2)).min?).getD 0)).map (·.1)).Nodup :=
    keysOf_filter_min_nodup counts hknd _
  have hp1 := h1.1 ((counts.filter
      (fun kv => kv.2 = ((counts.map (·.2)).min?).getD 0)).map (·.1))
  have hp2 := h2.1 ((counts.filter
      (fun kv => kv.2 = ((counts.map (·.2)).min?).getD 0)).map (·.1))
  cases ht1 : env1.perm ((counts.filter
      (fun kv => kv.2 = ((counts.map (·.2)).min?).getD 0)).map (·.1)) with
  | nil =>
    rw [ht1] at hp1
    have hcn : (counts.filter
        (fun kv => kv.2 = ((counts.map (·.2)).min?).getD 0)).map (·.1) = [] :=
      hp1.symm.eq_nil
    rw [hcn] at hp2 ⊢
    rw [hp2.eq_nil]
    dsimp only
    rw [breakTieComprehensive_nil env1 bs m prev, breakTieComprehensive_nil env2 bs m prev]
  | cons a tl =>
    cases tl with
    | nil =>
      rw [ht1] at hp1
      have hcn : (counts.filter
          (fun kv => kv.2 = ((counts.map (·.2)).min?).getD 0)).map (·.1) = [a] :=
        List.perm_singleton.mp hp1.symm
      rw [hcn] at hp2 ⊢
      rw [List.perm_singleton.mp hp2]
    | cons b tl2 =>
      rw [ht1] at hp1 hnr
      dsimp only at hnr
      have hnr' : (breakTieComprehensive env1 bs m (a :: b :: tl2) prev).2 ≠ .random := by
        intro hc
        exact hnr (by rw [hc])
      have ht1nd : (a :: b :: tl2).Nodup := hp1.nodup_iff.mpr hcannd
      have hlen1 := hp1.length_eq
      cases ht2 : env2.perm ((counts.filter
          (fun kv => kv.2 = ((counts.map (·.2)).min?).getD 0)).map (·.1)) with
      | nil =>
        rw [ht2] at hp2
        have hl2 := hp2.length_eq
        simp only [List.length_cons, List.length_nil] at hl2 hlen1
        omega
      | cons a2 tl2' =>
        cases tl2' with
        | nil =>
          rw [ht2] at hp2
          have hl2 := hp2.length_eq
          simp only [List.length_cons, List.length_nil] at hl2 hlen1
          omega
        | cons b2 tl2'' =>
          dsimp only
          rw [ht2] at hp2
          have hpp : (a :: b :: tl2).Perm (a2 :: b2 :: tl2'') := hp1.trans hp2.symm
          rw [breakTieComprehensive_perm env1 env2 bs m (a :: b :: tl2)
            (a2 :: b2 :: tl2'') prev ht1nd hpp hnr']

theorem computeRound_reason_def (env : HashEnv) (bs : List Ballot) (m : TieBreakMethod)
    (elim : List Uuid) (prev : List Round) (k : Nat) :
    (computeRound env bs m elim prev k).tiebreakReason =
      (if (computeRound env bs m elim prev k).winner = none ∧
          1 < (tallyVotes bs elim).1.length then
        chooseElimination env bs m (tallyVotes bs elim).1 prev
      else (none, none)).2 := rfl

theorem computeRound_env_eq (env1 env2 : HashEnv) (bs : List Ballot) (m : TieBreakMethod)
    (elim : List Uuid) (prev : List Round) (k : Nat)
    (h1 : env1.Ok) (h2 : env2.Ok)
    (hnr : (computeRound env1 bs m elim prev k).tiebreakReason ≠ some .random) :
    computeRound env2 bs m elim prev k = computeRound env1 bs m elim prev k := by
  have hknd := tallyVotes_keys_nodup bs elim
  rw [computeRound_reason_def env1 bs m elim prev k] at hnr
  unfold computeRound at hnr ⊢
  dsimp only at hnr ⊢
  split_ifs at hnr ⊢ with hcond
  · rw [chooseElimination_env_eq env1 env2 bs m (tallyVotes bs elim).1 prev h1 h2
      hknd hnr]
  · rfl

theorem runRounds_env_eq (env1 env2 : HashEnv) (bs : List Ballot) (m : TieBreakMethod)
    (h1 : env1.Ok) (h2 : env2.Ok) :
    ∀ (fuel : Nat) (elim : List Uuid) (prev : List Round) (k : Nat) (rs : List Round),
      runRounds env1 bs m fuel elim prev k = .ok rs →
      (∀ r ∈ rs, r.tiebreakReason ≠ some .random) →
      runRounds env2 bs m fuel elim prev k = .ok rs := by
  intro fuel
  induction fuel with
  | zero => intro elim prev k rs h _; exact absurd h (by simp [runRounds])
  | succ f ih =>
    intro elim prev k rs h hnr
    simp only [runRounds] at h ⊢
    split at h
    · rename_i hcond
      obtain rfl := Except.ok.inj h
      have hr0 : (computeRound env1 bs m elim prev k).tiebreakReason ≠ some .random :=
        hnr _ (List.mem_singleton.mpr rfl)
      have hcr := computeRound_env_eq env1 env2 bs m elim prev k h1 h2 hr0
      rw [hcr]
      rw [if_pos hcond]
    · rename_i hcond
      cases hrec : runRounds env1 bs m f
          (match (computeRound env1 bs m elim prev k).eliminated with
           | some e => elim ++ [e]
           | none => elim) (prev ++ [computeRound env1 bs m elim prev k]) (k + 1) with
      | error err => rw [hrec] at h; simp [Except.map] at h
      | ok rest =>
        rw [hrec] at h
        simp only [Except.map] at h
        obtain rfl := Except.ok.inj h
        have hr0 : (computeRound env1 bs m elim prev k).tiebreakReason ≠ some .random :=
          hnr _ (List.mem_cons_self _ _)
        have hcr := computeRound_env_eq env1 env2 bs m elim prev k h1 h2 hr0
        rw [hcr]
        rw [if_neg hcond]
        rw [ih _ _ _ rest hrec (fun r hr => hnr r (List.mem_cons_of_mem _ hr))]
        rfl

/-- Claim C3 (amended): `tabulate` is a deterministic function of the
candidates, ballots and tie-break configuration whenever no round's tie is
decided by the `Random` rung; in that case any two invocations — i.e. any two
legitimate `HashMap` iteration orders and PRNG streams — return the identical
result, round by round.  (When the `Random` rung does decide among two or
more tied candidates, the output additionally depends on the `HashMap`
iteration order of that round's tally map, which is not a function of the
inputs; see the counterexample.) -/
theorem C3_no_random_determinism (env1 env2 : HashEnv) (c : List Candidate)
    (b : List Ballot) (m : TieBreakMethod) (res : RcvResult)
    (h1 : env1.Ok) (h2 : env2.Ok)
    (hok : tabulate env1 c b m = .ok res)
    (hnr : ∀ r ∈ res.rounds, r.tiebreakReason ≠ some TieBreakReason.random) :
    tabulate env2 c b m = .ok res := by
  obtain ⟨hval, hc2, rs, hrr, hrows, hwin, htot, hexh⟩ := tabulate_ok_inv env1 c b m res hok
  have hrr2 : runRounds env2 b m c.length [] [] 1 = .ok rs :=
    runRounds_env_eq env1 env2 b m h1 h2 c.length [] [] 1 rs hrr
      (fun r hr => hnr r (hrows ▸ hr))
  unfold tabulate
  rw [hval]
  simp only [Bind.bind, Except.bind]
  rw [if_neg (by omega)]
  rw [hrr2]
  simp only [pure, Except.pure]
  congr 1
  cases res with
  | mk rounds winner totalBallots exhaustedBallots =>
    simp only at hrows hwin htot hexh
    subst hrows hwin htot hexh
    rfl

/-- Witness for C3 (amended): the first-round-majority scenario has no
tie-break at all, and rerunning it under the reversed iteration order yields
the identical result. -/
theorem C3_witness : envId.Ok ∧ envRev.Ok ∧
    ∃ res, tabulate envId cands3 ballotsMaj (.random 42) = .ok res ∧
      (∀ r ∈ res.rounds, r.tiebreakReason ≠ some TieBreakReason.random) ∧
      tabulate envRev cands3 ballotsMaj (.random 42) = .ok res := by
  refine ⟨envId_ok, envRev_ok, ?_⟩
  cases h : tabulate envId cands3 ballotsMaj (.random 42) with
  | error e =>
    have hne : errOf (tabulate envId cands3 ballotsMaj (.random 42)) = none := by decide
    rw [h] at hne
    simp [errOf] at hne
  | ok res =>
    have hreasons : (tabulate envId cands3 ballotsMaj (.random 42)).toOption.map
        (fun r => r.rounds.map (·.tiebreakReason)) = some [none] := by decide
    rw [h] at hreasons
    simp only [Except.toOption, Option.map_some', Option.some.injEq] at hreasons
    have hnr : ∀ r ∈ res.rounds, r.tiebreakReason ≠ some TieBreakReason.random := by
      intro r hr
      have : r.tiebreakReason ∈ res.rounds.map (·.tiebreakReason) :=
        List.mem_map.mpr ⟨r, hr, rfl⟩
      rw [hreasons] at this
      rw [List.mem_singleton.mp this]
      simp
    exact ⟨res, rfl, hnr,
      C3_no_random_determinism envId envRev cands3 ballotsMaj (.random 42) res
        envId_ok envRev_ok h hnr⟩

/-- Counterexample for C1 as stated: an open poll, an un-voted voter, and an
invited submission ranking candidate 5 twice with ranks 1 and 2.  The
submission validator accepts it (`none` = proceed to persist; it has no
duplicate-candidate check, and the ranks 1, 2 are sequential), and the
persistence step then stores both duplicate ranking rows. -/
theorem C1_counterexample :
    submitBallotValidate { id := 1, pollId := 1, votedAt := none }
      { id := 1, isPublic := true, opensAt := none, closesAt := none } 0 [5]
      [(5, 1), (5, 2)] = none ∧
    ((submitBallotPersist
      { ballots := [], rankings := [],
        voters := [{ id := 1, pollId := 1, votedAt := none }], nextId := 0 }
      { id := 1, pollId := 1, votedAt := none } 1 [(5, 1), (5, 2)] 7).1).rankings.map
        (·.candidateId) = [5, 5] :=
  ⟨by decide, by decide⟩

/-- Claim C1 (amended): the submission validators (invited and anonymous)
have NO duplicate-candidate check: a submission listing the same candidate
twice with sequential ranks passes validation and is persisted; the
duplicate is rejected only later, at tabulation time, by the engine's
`validate_ballots`.  Every rejection carries exactly one reason (the
validator returns a single `Option SubmitReject`), the first violation found
in source order, which begins with `AlreadyVoted` (invited route) — e.g. a
voted voter submitting an empty ballot is rejected as `AlreadyVoted`, not
`Empty`. -/
theorem C1_validator_accepts_duplicates (voter : VoterM) (poll : PollM) (now : Nat)
    (validIds : List Uuid) (c : Uuid) (cands : List Candidate)
    (hnv : voter.votedAt = none) (hopen : pollIsOpen poll now = true)
    (hpub : poll.isPublic = true) (hc : c ∈ validIds)
    (hcand : c ∈ cands.map (·.id)) :
    submitBallotValidate voter poll now validIds [(c, 1), (c, 2)] = none ∧
    submitAnonymousValidate poll now validIds [(c, 1), (c, 2)] = none ∧
    (∀ bid vid, validateBallots cands [{ id := bid, voterId := vid, rankings := [c, c] }] =
      .error (.duplicateRanking bid)) ∧
    (∀ (v2 : VoterM) (t : Nat), v2.votedAt = some t →
      submitBallotValidate v2 poll now validIds [] = some .alreadyVoted) := by
  refine ⟨?_, ?_, ?_, ?_⟩
  · unfold submitBallotValidate
    rw [if_neg (by simp [VoterM.hasVoted, hnv])]
    rw [if_neg (by simp [hopen])]
    rw [if_neg (by simp)]
    rw [if_neg (by simp [hc])]
    rw [if_neg (by simp only [List.map_cons, List.map_nil]; decide)]
  · unfold submitAnonymousValidate
    rw [if_neg (by simp [hpub])]
    rw [if_neg (by simp [hopen])]
    rw [if_neg (by simp)]
    rw [if_neg (by simp [hc])]
    rw [if_neg (by simp only [List.map_cons, List.map_nil]; decide)]
  · intro bid vid
    have hchk : checkBallotRankings (cands.map (·.id)) bid [] [c, c] =
        .error (.duplicateRanking bid) := by
      unfold checkBallotRankings
      rw [if_neg (by simp [hcand])]
      rw [if_neg (by simp)]
      unfold checkBallotRankings
      rw [if_neg (by simp [hcand])]
      rw [if_pos (by simp)]
    unfold validateBallots
    rw [hchk]
    rfl
  · intro v2 t hv2
    unfold submitBallotValidate
    rw [if_pos (by simp [VoterM.hasVoted, hv2])]

/-- Witness for C1 (amended) at concrete values: candidate 5, open poll,
un-voted voter. -/
theorem C1_witness :
    submitBallotValidate { id := 2, pollId := 3, votedAt := none }
      { id := 3, isPublic := true, opensAt := some 1, closesAt := some 9 } 4 [5, 6]
      [(5, 1), (5, 2)] = none ∧
    submitAnonymousValidate
      { id := 3, isPublic := true, opensAt := some 1, closesAt := some 9 } 4 [5, 6]
      [(5, 1), (5, 2)] = none ∧
    (∀ bid vid, validateBallots [{ id := 5, name := [] }, { id := 6, name := [] }]
      [{ id := bid, voterId := vid, rankings := [5, 5] }] =
      .error (.duplicateRanking bid)) ∧
    (∀ (v2 : VoterM) (t : Nat), v2.votedAt = some t →
      submitBallotValidate v2
        { id := 3, isPublic := true, opensAt := some 1, closesAt := some 9 } 4 [5, 6]
        [] = some .alreadyVoted) :=
  C1_validator_accepts_duplicates { id := 2, pollId := 3, votedAt := none }
    { id := 3, isPublic := true, opensAt := some 1, closesAt := some 9 } 4 [5, 6] 5
    [{ id := 5, name := [] }, { id := 6, name := [] }]
    rfl (by decide) rfl (by decide) (by decide)

/-- Claim C2, evaluated at the failing input: `Voter::mark_as_voted` is an
unconditional `UPDATE` run in a separate statement after `Ballot::create`'s
transaction commits.  On a voter whose `voted_at` is already set it still
reports success and a second ballot is inserted; and between the two
statements the store observably holds the committed ballot while the voter
is still un-voted. -/
theorem C2_mark_as_voted_unconditional :
    -- (a) the update does not fail although voted_at is already set
    (∃ st', Voter.markAsVoted
      { ballots := [{ id := 0, voterId := some 1, pollId := 1, submittedAt := 5 }],
        rankings := [{ ballotId := 0, candidateId := 5, rank := 1 }],
        voters := [{ id := 1, pollId := 1, votedAt := some 5 }], nextId := 1 }
      1 9 = .ok st') ∧
    -- (b) the full flow re-run for the already-voted voter inserts a second
    -- ballot and still succeeds
    (∃ fin, (submitBallotPersist
      { ballots := [{ id := 0, voterId := some 1, pollId := 1, submittedAt := 5 }],
        rankings := [{ ballotId := 0, candidateId := 5, rank := 1 }],
        voters := [{ id := 1, pollId := 1, votedAt := some 5 }], nextId := 1 }
      { id := 1, pollId := 1, votedAt := some 5 } 1 [(5, 1)] 9).2.1 = .ok fin ∧
      fin.ballots.map (·.voterId) = [some 1, some 1]) ∧
    -- (c) for a fresh voter, the intermediate state after `Ballot::create`
    -- but before `mark_as_voted` holds the ballot with the voter un-voted
    ((submitBallotPersist
      { ballots := [], rankings := [],
        voters := [{ id := 1, pollId := 1, votedAt := none }], nextId := 0 }
      { id := 1, pollId := 1, votedAt := none } 1 [(5, 1)] 9).1.ballots.map
        (·.voterId) = [some 1] ∧
     (submitBallotPersist
      { ballots := [], rankings := [],
        voters := [{ id := 1, pollId := 1, votedAt := none }], nextId := 0 }
      { id := 1, pollId := 1, votedAt := none } 1 [(5, 1)] 9).1.voters.map
        (·.votedAt) = [none]) :=
  ⟨⟨_, rfl⟩, ⟨_, rfl, by decide⟩, by decide, by decide⟩

/-- Counterexample for C8 as stated: the submission response formats the
CURRENT wall-clock year while the receipt fetch formats the year of the
stored `submitted_at`.  For a ballot inserted with `submitted_at` in 2026
whose response is built just after midnight on 2027-01-01, the two receipt
codes differ; with equal years they agree. -/
theorem C8_counterexample :
    firstUuidSegment wUuid = "1a2b3c4d".toList ∧
    submitReceiptCode 2026 wUuid = fetchReceiptCode 2026 wUuid ∧
    submitReceiptCode 2027 wUuid ≠ fetchReceiptCode 2026 wUuid :=
  ⟨by decide, by decide, by decide⟩

/-- Claim C8 (amended): provided the wall-clock year when the submission
response is generated equals the year of the ballot's stored `submitted_at`
(always, except across a New Year boundary), fetching the receipt by the
same token returns exactly the receipt code the submission response carried;
invited codes begin with `VOTE-` and anonymous codes with `ANON-`, each
followed by the year and the first `-`-separated segment of the ballot id. -/
theorem C8_receipt_roundtrip (nowYear subYear : Nat) (bid : List Char)
    (hyear : nowYear = subYear) :
    submitReceiptCode nowYear bid = fetchReceiptCode subYear bid ∧
    (submitReceiptCode nowYear bid).take 5 = "VOTE-".toList ∧
    (anonReceiptCode nowYear bid).take 5 = "ANON-".toList := by
  subst hyear
  refine ⟨rfl, ?_, ?_⟩
  · have hlen : ("VOTE-".toList).length = 5 := rfl
    unfold submitReceiptCode
    rw [show ("VOTE-".toList ++ natDigits nowYear ++ "-".toList ++ firstUuidSegment bid) =
      "VOTE-".toList ++ (natDigits nowYear ++ "-".toList ++ firstUuidSegment bid) by
        simp [List.append_assoc]]
    rw [← hlen, List.take_left]
  · have hlen : ("ANON-".toList).length = 5 := rfl
    unfold anonReceiptCode
    rw [show ("ANON-".toList ++ natDigits nowYear ++ "-".toList ++ firstUuidSegment bid) =
      "ANON-".toList ++ (natDigits nowYear ++ "-".toList ++ firstUuidSegment bid) by
        simp [List.append_assoc]]
    rw [← hlen, List.take_left]

/-- Witness for C8 (amended) at the concrete rendered ballot id and year. -/
theorem C8_witness :
    submitReceiptCode 2026 wUuid = fetchReceiptCode 2026 wUuid ∧
    (submitReceiptCode 2026 wUuid).take 5 = "VOTE-".toList ∧
    (anonReceiptCode 2026 wUuid).take 5 = "ANON-".toList :=
  C8_receipt_roundtrip 2026 2026 wUuid rfl
